import Mathlib

/-!
Shallow embedding of the itree "Tree Model & Navigation Engine"
(src/fs.rs, src/tree.rs, src/render.rs) and proofs about the spec's claims.

Machine strings are modelled as Lean `String`s and string lengths as UTF-8
byte sizes (Rust `String::len`).  The `indextree` arena is modelled as a
list of nodes indexed by position (node ids are allocation order, exactly as
`indextree` assigns them); `HashMap` becomes an association list whose
lookup finds the most recent insertion, and `HashSet` a duplicate-free list.
Rust panics (index out of bounds, `unwrap` on `None`, `expect`,
`unreachable!`) are modelled by `Option`/dedicated result constructors:
`none` / `.panicked` means the Rust program panics.
-/

namespace ItreeModel

/-- `std::fs::FileType` of a walker dir-entry, as used by the source:
only `is_dir` / `is_file` / otherwise(symlink) are inspected.  `none` at the
`WDirEntry` level models `DirEntry::file_type() == None` (stdin). -/
inductive FKind where
  | dir
  | file
  | symlink
deriving DecidableEq, Repr

/-- Model of `ignore::DirEntry` together with the environment answers the
source queries about it (`read_link`, `metadata`).  `pathFileName` is
`path().file_name()`, `readLinkOk`/`linkDestName` model `read_link` and the
dest path's `file_name()`, `metaIsDir` models `metadata(path).is_dir()`
(with `false` also covering a metadata error, as in `is_or_points_to_dir`). -/
structure WDirEntry where
  path : String
  pathFileName : Option String
  depth : Nat
  isSymlink : Bool
  readLinkOk : Bool
  linkDestName : Option String
  ftype : Option FKind
  metaIsDir : Bool
deriving DecidableEq, Repr

/-- `fs::FileType` (the itree classification of an entry). -/
inductive FileType where
  | file
  | dir
  | restrictedDir
  | stdin
  | linkTo (dest : String)
deriving DecidableEq, Repr

/-- `fs::FsEntry`. -/
structure FsEntry where
  ft : FileType
  de : WDirEntry
  name : String
deriving DecidableEq, Repr

/-- `io::ErrorKind`, restricted to the kinds the source distinguishes. -/
inductive IOKind where
  | permissionDenied
  | notFound
  | otherKind
deriving DecidableEq, Repr

/-- The inner error of `ignore::Error::WithPath`. -/
inductive WalkInner where
  | io (kind : IOKind)
  | nonIo
deriving DecidableEq, Repr

/-- `ignore::Error` as the source discriminates it. -/
inductive WalkError where
  | withPath (path : String) (inner : WalkInner)
  | plain
deriving DecidableEq, Repr

/-- One item of the directory-walker stream. -/
abbrev WItem := Except WalkError WDirEntry

/-- `fs::path_to_string` (the non-UTF8 placeholder branch is not
representable for Lean strings and does not arise in our models). -/
def path_to_string (fname : Option String) : String :=
  fname.getD "<node name unknown>"

/-- `fs::de_to_fsentry`. -/
def de_to_fsentry (de : WDirEntry) : FsEntry :=
  let name := path_to_string de.pathFileName
  let ft :=
    if de.isSymlink then
      let dest :=
        if de.readLinkOk then path_to_string de.linkDestName
        else "<error reading dest>"
      FileType.linkTo dest
    else
      match de.ftype with
      | some t => if t = FKind.dir then FileType.dir else FileType.file
      | none => FileType.stdin
  { ft := ft, de := de, name := name }

/-- `fs::root_to_fsentry`: the root entry is forcibly classified `Dir` and
named after the requested root path (trailing slash popped). -/
def root_to_fsentry (dir : String) (de : WDirEntry) : FsEntry :=
  { ft := FileType.dir
    de := de
    name :=
      if dir = "." then "."
      else if dir.data.getLast? = some ('/') then String.mk dir.data.dropLast
      else dir }

/-- `fs::is_or_points_to_dir`. -/
def is_or_points_to_dir (de : WDirEntry) : Bool :=
  match de.ftype with
  | some FKind.dir => true
  | some FKind.file => false
  | some FKind.symlink => de.metaIsDir
  | none => false

/-- `fs::DepthChange`. -/
inductive DepthChange where
  | nextIsFirst
  | isnt
  | last (d : Nat)
deriving DecidableEq, Repr

/-- `DepthChange::for_depths`. -/
def DepthChange.for_depths (next curr : Nat) : DepthChange :=
  if next < curr then DepthChange.last (curr - next)
  else if next > curr then DepthChange.nextIsFirst
  else DepthChange.isnt

/-- `fs::determine_place_in_tree`.  The `PutBack` iterator is modelled by
the remaining stream list (`put_back` is cons, which is exactly the slot
discipline since the source never puts back twice in a row).  Returns the
depth change, the remaining stream, and the (possibly downgraded) entry. -/
def determine_place_in_tree :
    List WItem → FsEntry → Bool → DepthChange × List WItem × FsEntry
  | [], fse, _ => (DepthChange.last 0, [], fse)
  | Except.ok nxt :: rest, fse, onlyDirs =>
      if onlyDirs && !is_or_points_to_dir nxt then
        determine_place_in_tree rest fse onlyDirs
      else
        (DepthChange.for_depths nxt.depth fse.de.depth, Except.ok nxt :: rest, fse)
  | Except.error e :: rest, fse, onlyDirs =>
      match e with
      | WalkError.withPath p (WalkInner.io IOKind.permissionDenied) =>
          if p = fse.de.path then
            determine_place_in_tree rest { fse with ft := FileType.restrictedDir } onlyDirs
          else
            determine_place_in_tree rest fse onlyDirs
      | _ => determine_place_in_tree rest fse onlyDirs

/-- One node of the `indextree::Arena`: parent link plus ordered children
(`append` adds at the back, which is how the source builds every edge). -/
structure ANode where
  parent : Option Nat
  children : List Nat
  entry : FsEntry
deriving DecidableEq, Repr

/-- The arena: node id = position in the list (allocation order). -/
abbrev Arena := List ANode

/-- Replace the element at an index (no-op when out of bounds). -/
def modifyIdx : List α → Nat → (α → α) → List α
  | [], _, _ => []
  | x :: xs, 0, f => f x :: xs
  | x :: xs, n + 1, f => x :: modifyIdx xs n f

def parentOf (a : Arena) (i : Nat) : Option Nat :=
  (a.get? i).bind (fun n => n.parent)

def childrenOf (a : Arena) (i : Nat) : List Nat :=
  ((a.get? i).map (fun n => n.children)).getD []

def entryOf (a : Arena) (i : Nat) : Option FsEntry :=
  (a.get? i).map (fun n => n.entry)

def firstChildOf (a : Arena) (i : Nat) : Option Nat :=
  (childrenOf a i).head?

def lastChildOf (a : Arena) (i : Nat) : Option Nat :=
  (childrenOf a i).getLast?

/-- The element following `i` in a list, if any. -/
def listNextAfter : List Nat → Nat → Option Nat
  | [], _ => none
  | x :: rest, i => if x = i then rest.head? else listNextAfter rest i

/-- The element preceding `i` in a list, if any. -/
def listPrevBefore : List Nat → Nat → Option Nat
  | [], _ => none
  | x :: rest, i => if rest.head? = some i then some x else listPrevBefore rest i

/-- `indextree` `next_sibling`. -/
def nextSiblingOf (a : Arena) (i : Nat) : Option Nat :=
  (parentOf a i).bind (fun p => listNextAfter (childrenOf a p) i)

/-- `indextree` `previous_sibling`. -/
def prevSiblingOf (a : Arena) (i : Nat) : Option Nat :=
  (parentOf a i).bind (fun p => listPrevBefore (childrenOf a p) i)

/-- `fs::add_child_to_tree`: allocate a node and append it as last child. -/
def add_child_to_tree (a : Arena) (node : Nat) (data : FsEntry) : Arena × Nat :=
  let newId := a.length
  let a1 := a ++ [{ parent := some node, children := [], entry := data }]
  (modifyIdx a1 node (fun n => { n with children := n.children ++ [newId] }), newId)

/-- Walking `curr` up its parent chain `d` times, each step
`.expect("The node should have a parent")`; `none` models that panic. -/
def walkUp (a : Arena) : Nat → Nat → Option Nat
  | curr, 0 => some curr
  | curr, d + 1 =>
      match parentOf a curr with
      | none => none
      | some p => walkUp a p d

/-- Result of the `fs_to_tree` main loop: either the finished arena with the
file/directory counts, or a Rust panic. -/
inductive LoopRes where
  | ok (a : Arena) (nFiles nDirs : Nat)
  | panicked
deriving DecidableEq, Repr

theorem determine_place_in_tree_length_le (ws : List WItem) (fse : FsEntry) (o : Bool) :
    (determine_place_in_tree ws fse o).2.1.length ≤ ws.length := by
  induction ws generalizing fse with
  | nil => simp [determine_place_in_tree]
  | cons w rest ih =>
      match w with
      | Except.ok nxt =>
          by_cases h : (o && !is_or_points_to_dir nxt) = true
          · simp only [determine_place_in_tree, h, if_pos]
            exact le_trans (ih _) (Nat.le_succ _)
          · simp only [determine_place_in_tree, h, if_neg, Bool.not_eq_true]
            simp
      | Except.error e =>
          match e with
          | WalkError.withPath p (WalkInner.io IOKind.permissionDenied) =>
              by_cases h : p = fse.de.path
              · simp only [determine_place_in_tree, h, if_pos]
                exact le_trans (ih _) (Nat.le_succ _)
              · simp only [determine_place_in_tree, h, if_neg, not_false_iff]
                exact le_trans (ih _) (Nat.le_succ _)
          | WalkError.withPath p (WalkInner.io IOKind.notFound) =>
              exact le_trans (ih _) (Nat.le_succ _)
          | WalkError.withPath p (WalkInner.io IOKind.otherKind) =>
              exact le_trans (ih _) (Nat.le_succ _)
          | WalkError.withPath p WalkInner.nonIo =>
              exact le_trans (ih _) (Nat.le_succ _)
          | WalkError.plain =>
              exact le_trans (ih _) (Nat.le_succ _)

/-- The main loop of `fs::fs_to_tree` (`while let Some(res) = walk.next()`).
An `Err` reaching the loop head is the source's `panic!`; a failed
`walk up d parents` is the source's `.expect(..)` panic.  `fuel` makes the
recursion structural; since every iteration consumes at least one stream
item, the call site's `fuel = stream length` never runs out. -/
def buildLoop (onlyDirs : Bool) :
    Nat → List WItem → Arena → Nat → Nat → Nat → LoopRes
  | _, [], a, _, nf, nd => LoopRes.ok a nf nd
  | _, Except.error _ :: _, _, _, _, _ => LoopRes.panicked
  | 0, Except.ok _ :: _, _, _, _, _ => LoopRes.panicked
  | fuel + 1, Except.ok de :: rest, a, curr, nf, nd =>
      if !is_or_points_to_dir de && onlyDirs then
        buildLoop onlyDirs fuel rest a curr nf nd
      else
        let nf' := if is_or_points_to_dir de then nf else nf + 1
        let nd' := if is_or_points_to_dir de then nd + 1 else nd
        match determine_place_in_tree rest (de_to_fsentry de) onlyDirs with
        | (DepthChange.nextIsFirst, rest', fse') =>
            let p := add_child_to_tree a curr fse'
            buildLoop onlyDirs fuel rest' p.1 p.2 nf' nd'
        | (DepthChange.isnt, rest', fse') =>
            let p := add_child_to_tree a curr fse'
            buildLoop onlyDirs fuel rest' p.1 curr nf' nd'
        | (DepthChange.last d, rest', fse') =>
            let p := add_child_to_tree a curr fse'
            match walkUp p.1 curr d with
            | none => LoopRes.panicked
            | some c => buildLoop onlyDirs fuel rest' p.1 c nf' nd'

/-- Result of tree construction: the arena with root id and counts, a
process exit with the given code, or a panic (`unreachable!`/`panic!`). -/
inductive BuildResult where
  | ok (a : Arena) (root : Nat) (nFiles nDirs : Nat)
  | exitCode (c : Nat)
  | panicked
deriving DecidableEq, Repr

/-- `fs::fs_to_tree`: consume the stream; the first item becomes the root
(id 0).  A `WithPath` error first item exits with code 1, any other error
first item exits with code 2, and an empty stream hits `unreachable!`. -/
def fs_to_tree (rootDir : String) (stream : List WItem) (onlyDirs : Bool) : BuildResult :=
  match stream with
  | [] => BuildResult.panicked
  | Except.ok de :: rest =>
      let rootArena : Arena := [{ parent := none, children := [], entry := root_to_fsentry rootDir de }]
      match buildLoop onlyDirs rest.length rest rootArena 0 0 0 with
      | LoopRes.ok a nf nd => BuildResult.ok a 0 nf nd
      | LoopRes.panicked => BuildResult.panicked
  | Except.error (WalkError.withPath _ _) :: _ => BuildResult.exitCode 1
  | Except.error WalkError.plain :: _ => BuildResult.exitCode 2

/-! ## The line projection (`tree::TreeLines`, `tree::Tree::draw`) -/

def MID_BRANCH : String := "├──"
def END_BRANCH : String := "└──"
def BLANK_INDENT : String := "    "
def BAR_INDENT : String := "│   "
def FOLD_MARK : String := "*"
def RESTRICTED_MARK : String := " [error opening dir]"

/-- `tree::Indent`. -/
inductive Indent where
  | bar
  | blank
deriving DecidableEq, Repr

def indentStr : Indent → String
  | Indent.bar => BAR_INDENT
  | Indent.blank => BLANK_INDENT

/-- The prefix string accumulated from an indent stack
(the `for i in indents.iter()` push loop of `draw_from`). -/
def indentsConcat (l : List Indent) : String :=
  l.foldl (fun s i => s ++ indentStr i) ("")

/-- `tree::TreeLine`.  (`pfx` is the source's prefix string field.) -/
structure TreeLine where
  node : Nat
  pfx : String
  prev : Option Nat
  next : Nat
deriving DecidableEq, Repr

/-- `tree::TreeLines`: `inds` is the `HashMap<NodeId, usize>` as an
association list (later insertions shadow earlier ones, like the map),
`folded` the `HashSet<usize>` as a duplicate-free list. -/
structure TreeLines where
  inds : List (Nat × Nat)
  lines : List TreeLine
  folded : List Nat
  count : Nat
deriving DecidableEq, Repr

def TreeLines.new : TreeLines :=
  { inds := [], lines := [], folded := [], count := 0 }

/-- `TreeLines::add`. -/
def TreeLines.add (tl : TreeLines) (node : Nat) (pfx : String) : TreeLines :=
  { inds := (node, tl.count) :: tl.inds
    lines := tl.lines ++
      [{ node := node, pfx := pfx
         prev := if tl.count = 0 then none else some (tl.count - 1)
         next := tl.count + 1 }]
    folded := tl.folded
    count := tl.count + 1 }

/-- `HashMap` lookup on the association list model. -/
def lookupA (l : List (Nat × Nat)) (k : Nat) : Option Nat :=
  match l with
  | [] => none
  | (x, v) :: rest => if x = k then some v else lookupA rest k

/-- `tree::Tree::draw_from`: the `for child in root.children(&tree)` loop,
expressed as a fold over the children; each child line gets the current
indent-stack prefix plus its branch piece, then its own subtree is drawn
with the indent stack extended.  `fuel` bounds the recursion depth; call
sites pass the arena size, which suffices for every arena the builder
produces (children always have larger ids than their parents). -/
def drawFromA (a : Arena) : Nat → Nat → List Indent → TreeLines → TreeLines
  | 0, _, _, tl => tl
  | fuel + 1, node, indents, tl =>
      (childrenOf a node).foldl
        (fun tl c =>
          let isLast := some c = lastChildOf a node
          let pfx := indentsConcat indents ++ (if isLast then END_BRANCH else MID_BRANCH)
          drawFromA a fuel c (indents ++ [if isLast then Indent.blank else Indent.bar])
            (tl.add c pfx))
        tl

/-- `tree::Tree::draw`: the root line (empty prefix) followed by the whole
depth-first projection. -/
def draw (a : Arena) (root : Nat) : TreeLines :=
  drawFromA a a.length root [] (TreeLines.new.add root (""))

/-! ## The tree state and its operations (`tree::Tree`) -/

/-- `tree::Tree` (the `render_opts` plumbing is omitted: it never interacts
with the model). -/
structure TState where
  arena : Arena
  root : Nat
  focused : Nat
  focusedChild : List (Nat × Nat)
  lines : TreeLines
  nFiles : Nat
  nDirs : Nat
deriving DecidableEq, Repr

instance : Inhabited TState :=
  ⟨{ arena := [], root := 0, focused := 0, focusedChild := [], lines := TreeLines.new,
     nFiles := 0, nDirs := 0 }⟩

/-- `tree::Tree::new_with_options` (minus terminal options): build the
arena, draw the lines, and focus the root's first child, or the root when
it has none.  `none` propagates a construction panic or exit. -/
def new_with_options (rootDir : String) (stream : List WItem) (onlyDirs : Bool) :
    Option TState :=
  match fs_to_tree rootDir stream onlyDirs with
  | BuildResult.ok a root nf nd =>
      some { arena := a, root := root
             focused := (firstChildOf a root).getD root
             focusedChild := []
             lines := draw a root
             nFiles := nf, nDirs := nd }
  | _ => none

/-- `tree::Tree::focus_up`.  `none` models the arena-index panic. -/
def focus_up (st : TState) : Option TState := do
  let nd ← st.arena.get? st.focused
  match nd.parent with
  | none => pure st
  | some p =>
      if p = st.root then pure st
      else pure { st with focused := p
                          focusedChild := (p, st.focused) :: st.focusedChild }

/-- `tree::Tree::focus_down`. -/
def focus_down (st : TState) : Option TState := do
  match lookupA st.focusedChild st.focused with
  | some c => pure { st with focused := c }
  | none =>
      let nd ← st.arena.get? st.focused
      match nd.children.head? with
      | none => pure st
      | some ps =>
          let find ← lookupA st.lines.inds st.focused
          if st.lines.folded.contains find then pure st
          else pure { st with focused := ps }

/-- `tree::Tree::focus_left`. -/
def focus_left (st : TState) : Option TState := do
  let _ ← st.arena.get? st.focused
  match prevSiblingOf st.arena st.focused with
  | none => pure st
  | some ps => pure { st with focused := ps }

/-- `tree::Tree::focus_right`. -/
def focus_right (st : TState) : Option TState := do
  let _ ← st.arena.get? st.focused
  match nextSiblingOf st.arena st.focused with
  | none => pure st
  | some ns => pure { st with focused := ns }

/-- The `while let Some(p) = ptr` successor walk of `tree::fold_focus`:
first ancestor-or-self with a next sibling.  `none` = fuel ran out (never
happens on builder arenas), `some none` = no successor, `some (some n)` =
successor node `n`. -/
def subtreeSuccessor (a : Arena) : Nat → Option Nat → Option (Option Nat)
  | _, none => some none
  | 0, some _ => none
  | fuel + 1, some p =>
      match nextSiblingOf a p with
      | some n => some (some n)
      | none => subtreeSuccessor a fuel (parentOf a p)

/-- The `while let Some(c) = tree[ptr].last_child()` walk of
`tree::unfold_focus`: the deepest last descendant.  Fuel is passed as the
arena size, which suffices on builder arenas. -/
def deepestLastDesc (a : Arena) : Nat → Nat → Nat
  | 0, ptr => ptr
  | fuel + 1, ptr =>
      match lastChildOf a ptr with
      | none => ptr
      | some c => deepestLastDesc a fuel c

/-- `tree::Tree::fold_focus`. -/
def fold_focus (st : TState) : Option TState := do
  let nd ← st.arena.get? st.focused
  let t ← nd.entry.de.ftype
  if t ≠ FKind.dir then pure st
  else do
    let succ ← subtreeSuccessor st.arena st.arena.length (some st.focused)
    let newNext ←
      match succ with
      | some nn => lookupA st.lines.inds nn
      | none => pure st.lines.count
    let lines1 ←
      if newNext < st.lines.count then do
        let fInd0 ← lookupA st.lines.inds st.focused
        let _ ← st.lines.lines.get? newNext
        pure (modifyIdx st.lines.lines newNext (fun l => { l with prev := some fInd0 }))
      else pure st.lines.lines
    let fInd ← lookupA st.lines.inds st.focused
    let folded1 := if st.lines.folded.contains fInd then st.lines.folded
                   else fInd :: st.lines.folded
    let _ ← lines1.get? fInd
    pure { st with lines := { st.lines with
             lines := modifyIdx lines1 fInd (fun l => { l with next := newNext })
             folded := folded1 } }

/-- `tree::Tree::unfold_focus`. -/
def unfold_focus (st : TState) : Option TState := do
  let fInd ← lookupA st.lines.inds st.focused
  let ptr := deepestLastDesc st.arena st.arena.length st.focused
  let fl ← st.lines.lines.get? fInd
  let nInd := fl.next
  let lines1 ←
    if nInd < st.lines.count then do
      let pv ← lookupA st.lines.inds ptr
      let _ ← st.lines.lines.get? nInd
      pure (modifyIdx st.lines.lines nInd (fun l => { l with prev := some pv }))
    else pure st.lines.lines
  let folded1 := st.lines.folded.erase fInd
  let _ ← lines1.get? fInd
  pure { st with lines := { st.lines with
           lines := modifyIdx lines1 fInd (fun l => { l with next := fInd + 1 })
           folded := folded1 } }

/-- `tree::Tree::toggle_focus_fold`. -/
def toggle_focus_fold (st : TState) : Option TState := do
  let nd ← st.arena.get? st.focused
  if nd.entry.ft = FileType.dir then do
    let fInd ← lookupA st.lines.inds st.focused
    if st.lines.folded.contains fInd then unfold_focus st
    else fold_focus st
  else pure st

/-! ## Rendering helpers (`tree::Tree::summary`, `fmt::Display`,
`render_line`, `visual_lines_for_line`, the windower) -/

/-- `tree::Tree::summary`. -/
def summary (st : TState) : String :=
  toString st.nDirs ++ (" ") ++
    (if st.nDirs = 1 then "directory" else "directories") ++ (", ") ++
    toString st.nFiles ++ (" ") ++
    (if st.nFiles = 1 then "file" else "files")

/-- The name of the node a line points at (`self.tree[line.node].data.name`;
out-of-range ids cannot occur on builder states). -/
def nameOfLine (st : TState) (l : TreeLine) : String :=
  ((st.arena.get? l.node).map (fun n => n.entry.name)).getD ("")

/-- The suffix `tree::Tree::render_line` appends after the name (`fs::FileType::Stdin`
does not occur in drawn trees; it renders as the empty suffix here). -/
def renderSuffix (st : TState) (ind : Nat) : String :=
  match (st.lines.lines.get? ind).bind (fun l => (st.arena.get? l.node).map (fun n => n.entry.ft)) with
  | some FileType.file => ""
  | some FileType.dir => if st.lines.folded.contains ind then FOLD_MARK else ""
  | some FileType.restrictedDir => RESTRICTED_MARK
  | some (FileType.linkTo dest) => (" -> ") ++ dest
  | some FileType.stdin => ""
  | none => ""

/-- The text content of one rendered line (`render_line`, colors and line
endings stripped): prefix, a separating space when the prefix is nonempty,
the node name, and the kind suffix. -/
def renderLineString (st : TState) (ind : Nat) : String :=
  match st.lines.lines.get? ind with
  | none => ""
  | some l => l.pfx ++ (if l.pfx = "" then "" else " ") ++ nameOfLine st l ++ renderSuffix st ind

/-- `tree::Tree::visual_lines_for_line`.  Lengths are UTF-8 byte counts,
as Rust's `String::len`. -/
def visual_lines_for_line (st : TState) (lInd width : Nat) : Nat :=
  let l := (st.lines.lines.get? lInd).getD { node := 0, pfx := "", prev := none, next := 0 }
  let pl := l.pfx.utf8ByteSize
  let pl := if pl ≠ 0 then pl + 1 else pl
  let pl := pl + (nameOfLine st l).utf8ByteSize
  pl / width + 1

def prevOfLine (st : TState) (i : Nat) : Option Nat :=
  (st.lines.lines.get? i).bind (fun l => l.prev)

def nextOfLine (st : TState) (i : Nat) : Nat :=
  ((st.lines.lines.get? i).map (fun l => l.next)).getD 0

theorem one_le_visual_lines (st : TState) (i w : Nat) :
    1 ≤ visual_lines_for_line st i w := by
  simp [visual_lines_for_line]

/-- First loop of `bounds_of_range_around_line`: roll `start` back until
`space` visual lines are accumulated or the list starts, returning the new
start and the shortfall `start_diff`. -/
def walkBack (st : TState) (width : Nat) : Nat → Nat → Nat → Nat → Nat × Nat
  | 0, start, _, _ => (start, 0)
  | fuel + 1, start, i, space =>
      if i < space then
        match prevOfLine st start with
        | some p => walkBack st width fuel p (i + visual_lines_for_line st start width) space
        | none => (start, space - i)
      else (start, 0)

/-- Second loop of `bounds_of_range_around_line`: roll `end` forward until
`endMax` visual lines are accumulated or the list ends, returning the new
(exclusive) end and the shortfall `end_diff`. -/
def walkFwd (st : TState) (width : Nat) : Nat → Nat → Nat → Nat → Nat × Nat
  | 0, e, _, _ => (e, 0)
  | fuel + 1, e, i, endMax =>
      if i < endMax then
        let nx := nextOfLine st e
        if nx < st.lines.lines.length then
          walkFwd st width fuel nx (i + visual_lines_for_line st e width) endMax
        else (e + 1, endMax - i - 1)
      else (e, 0)

/-- `tree::Tree::bounds_of_range_around_line` (identical to the
`render.rs` copy): the three compensating walks. -/
def bounds_of_range_around_line (st : TState) (line n width : Nat) : Nat × Nat :=
  let space := n / 2
  let b1 := walkBack st width space line 0 space
  let f := walkFwd st width (space + n % 2 + b1.2) line 0 (space + n % 2 + b1.2)
  let b2 := walkBack st width f.2 b1.1 0 f.2
  (b2.1, f.1)

/-- Total visual-line cost of the chain of lines from `s` (inclusive) to
`e` (exclusive), following `next` links. -/
def chainSumF (st : TState) (width : Nat) : Nat → Nat → Nat → Nat
  | 0, _, _ => 0
  | fuel + 1, s, e =>
      if s < e then
        let nx := nextOfLine st s
        visual_lines_for_line st s width +
          (if s < nx then chainSumF st width fuel nx e else 0)
      else 0

def chainSum (st : TState) (width : Nat) (s e : Nat) : Nat :=
  chainSumF st width (e - s) s e

/-! ## Concrete walker streams and states used as fixtures -/

/-- A plain file entry as the walker yields it. -/
def mkFileDe (nm : String) (d : Nat) : WDirEntry :=
  { path := nm, pathFileName := some nm, depth := d, isSymlink := false,
    readLinkOk := true, linkDestName := none, ftype := some FKind.file,
    metaIsDir := false }

/-- A directory entry as the walker yields it. -/
def mkDirDe (nm : String) (d : Nat) : WDirEntry :=
  { path := nm, pathFileName := some nm, depth := d, isSymlink := false,
    readLinkOk := true, linkDestName := none, ftype := some FKind.dir,
    metaIsDir := true }

/-- The spec's concrete scenario: a root with files `myfile`, `myotherfile`. -/
def simpleStream : List WItem :=
  [Except.ok (mkDirDe ("simple") 0),
   Except.ok (mkFileDe ("myfile") 1),
   Except.ok (mkFileDe ("myotherfile") 1)]

def simpleState : TState := (new_with_options ("simple") simpleStream false).getD default

/-- root -> A(dir) -> B(dir) -> f(file), plus X(file) after A. -/
def nestedStream : List WItem :=
  [Except.ok (mkDirDe ("root") 0), Except.ok (mkDirDe ("A") 1),
   Except.ok (mkDirDe ("B") 2), Except.ok (mkFileDe ("f") 3),
   Except.ok (mkFileDe ("X") 1)]

/-- Reached from the initial `nestedStream` state by Down (focus B),
ToggleFold (fold B), Up (focus A, remembering B). -/
def nestedFoldedState : TState :=
  ((((new_with_options ("root") nestedStream false).bind
      focus_down).bind toggle_focus_fold).bind focus_up).getD default

/-- root -> D(dir) -> C(file). -/
def oneDirStream : List WItem :=
  [Except.ok (mkDirDe ("root") 0), Except.ok (mkDirDe ("D") 1),
   Except.ok (mkFileDe ("C") 2)]

def oneDirState : TState := (new_with_options ("root") oneDirStream false).getD default

/-- Reached from the initial `oneDirStream` state by Down (focus C),
Up (focus D, remembering C), ToggleFold (fold D). -/
def oneDirFoldedState : TState :=
  ((((new_with_options ("root") oneDirStream false).bind
      focus_down).bind focus_up).bind toggle_focus_fold).getD default

/-- Intermediate states of the `oneDirStream` session, for reachability. -/
def oneDirDown : TState := (focus_down oneDirState).getD default

def oneDirUp : TState := (focus_up oneDirDown).getD default

/-- A walk of an empty directory: the stream is just the root. -/
def loneStream : List WItem := [Except.ok (mkDirDe ("lone") 0)]

def loneState : TState := (new_with_options ("lone") loneStream false).getD default

/-- A three-character root name, for the C9 width-4 counterexample. -/
def abcState : TState :=
  (new_with_options ("abc") [Except.ok (mkDirDe ("abc") 0)] false).getD default

/-- root, D(dir), a permission-denied walker error on D observed during the
lookahead, then a file X. -/
def restrictedStream : List WItem :=
  [Except.ok (mkDirDe ("root") 0), Except.ok (mkDirDe ("D") 1),
   Except.error (WalkError.withPath ("D") (WalkInner.io IOKind.permissionDenied)),
   Except.ok (mkFileDe ("X") 1)]

def restrictedState : TState :=
  (new_with_options ("root") restrictedStream false).getD default

/-! ## The indent stack a node's children are drawn with -/

/-- The indent stack in force while drawing the children of `c`
(`fuel`-bounded parent recursion; `subIndents` passes `c` itself, enough
because parents have smaller ids in builder arenas).  Matches `draw_from`:
empty at the root, and extended by `Blank`/`Bar` as the traversal descends
into a last/non-last child. -/
def subIndentsF : Nat → Arena → Nat → List Indent
  | 0, _, _ => []
  | fuel + 1, a, c =>
      match parentOf a c with
      | none => []
      | some p =>
          subIndentsF fuel a p ++
            [if some c = lastChildOf a p then Indent.blank else Indent.bar]

def subIndents (a : Arena) (c : Nat) : List Indent := subIndentsF c a c

/-- The prefix `draw_from` computes for node `i`'s own line: the parent's
indent stack, then `EndBranch` if `i` is its parent's last child and
`MidBranch` otherwise.  The root keeps its empty prefix. -/
def pfxOf (a : Arena) (i : Nat) : String :=
  match parentOf a i with
  | none => ""
  | some p =>
      indentsConcat (subIndents a p) ++
        (if some i = lastChildOf a p then END_BRANCH else MID_BRANCH)

/-- Depth of a node (length of its parent chain), fuel-bounded. -/
def depthOfF : Nat → Arena → Nat → Nat
  | 0, _, _ => 0
  | fuel + 1, a, i =>
      match parentOf a i with
      | none => 0
      | some p => depthOfF fuel a p + 1

def depthOf (a : Arena) (i : Nat) : Nat := depthOfF i a i

/-! ## Well-formedness of builder arenas and reachable states -/

/-- Ancestry: `Desc a n i` holds when `n` lies on `i`'s parent chain
(`n` equals `i` or is a proper ancestor of it). -/
inductive Desc (a : Arena) : Nat → Nat → Prop where
  | refl (n : Nat) : Desc a n n
  | step {n p i : Nat} : Desc a n p → parentOf a i = some p → Desc a n i

/-- The last-child chain below a node: `LastChain a n v` holds when `v` is
reached from `n` by repeatedly descending into the last child.  These are
exactly the nodes whose subtree ends where `n`'s subtree ends in the
depth-first drawing order. -/
inductive LastChain (a : Arena) : Nat → Nat → Prop where
  | refl (n : Nat) : LastChain a n n
  | step {n c v : Nat} : lastChildOf a n = some c → LastChain a c v → LastChain a n v

/-- Structural well-formedness of the arenas `fs_to_tree` produces:
ids are allocation order, so parents precede children; the parent/children
relations agree; node 0 is the unique root. -/
structure WfAr (a : Arena) : Prop where
  ne : a ≠ []
  parentsLt : ∀ i p, parentOf a i = some p → p < i
  childGt : ∀ i c, c ∈ childrenOf a i → i < c
  childLtLen : ∀ i c, c ∈ childrenOf a i → c < a.length
  childParent : ∀ i c, c ∈ childrenOf a i → parentOf a c = some i
  parentChild : ∀ i p, parentOf a i = some p → i ∈ childrenOf a p
  childSorted : ∀ i, List.Pairwise (· < ·) (childrenOf a i)
  rootParentNone : parentOf a 0 = none
  nonRootParent : ∀ i, 0 < i → i < a.length → parentOf a i ≠ none

/-- Walker items the model is exact for: every `Ok` entry has a file type
(`DirEntry::file_type()` is `None` only for stdin walks, which a directory
walk never produces). -/
def wOk : WItem → Bool
  | Except.ok de => de.ftype.isSome
  | Except.error _ => true

/-- The walker-stream condition under which the model is exact. -/
def WfStream (s : List WItem) : Prop :=
  ∀ w ∈ s, wOk w = true

instance (s : List WItem) : Decidable (WfStream s) :=
  List.decidableBAll _ s

/-- Invariant of reachable `Tree` states: a well-formed arena, the focus a
valid node, every node present in the `inds` map with an in-range line,
and the `focused_child` memory holding valid non-root nodes.  The focus can
be the root only when the root has no children. -/
structure Inv (st : TState) : Prop where
  wf : WfAr st.arena
  rootZero : st.root = 0
  focLt : st.focused < st.arena.length
  ftypeSome : ∀ i nd, st.arena.get? i = some nd → nd.entry.de.ftype ≠ none
  countEq : st.lines.count = st.lines.lines.length
  indsOk : ∀ i, i < st.arena.length →
    ∃ k, lookupA st.lines.inds i = some k ∧ k < st.lines.count
  fcLt : ∀ p v, lookupA st.focusedChild p = some v → v < st.arena.length
  focNz : childrenOf st.arena 0 ≠ [] → st.focused ≠ 0
  fcNz : ∀ p v, lookupA st.focusedChild p = some v → v ≠ 0

/-- States of the tree-and-navigation engine reachable by the program:
a successful construction from a well-formed walker stream, followed by
any sequence of navigation/fold commands. -/
inductive Reachable : TState → Prop where
  | init (rootDir : String) (stream : List WItem) (onlyDirs : Bool) (st : TState) :
      WfStream stream → new_with_options rootDir stream onlyDirs = some st →
      Reachable st
  | up {st st' : TState} : Reachable st → focus_up st = some st' → Reachable st'
  | down {st st' : TState} : Reachable st → focus_down st = some st' → Reachable st'
  | left {st st' : TState} : Reachable st → focus_left st = some st' → Reachable st'
  | right {st st' : TState} : Reachable st → focus_right st = some st' → Reachable st'
  | toggle {st st' : TState} : Reachable st → toggle_focus_fold st = some st' →
      Reachable st'

/-! ## Basic lemmas about the list/assoc-map models -/

theorem length_modifyIdx (l : List α) (i : Nat) (f : α → α) :
    (modifyIdx l i f).length = l.length := by
  induction l generalizing i with
  | nil => rfl
  | cons x xs ih =>
      cases i with
      | zero => rfl
      | succ n => simp [modifyIdx, ih]

theorem get?_modifyIdx (l : List α) (i : Nat) (f : α → α) (j : Nat) :
    (modifyIdx l i f).get? j = if j = i then (l.get? j).map f else l.get? j := by
  induction l generalizing i j with
  | nil => simp [modifyIdx]
  | cons x xs ih =>
      cases i with
      | zero =>
          cases j with
          | zero => simp [modifyIdx]
          | succ m => simp [modifyIdx]
      | succ n =>
          cases j with
          | zero => simp [modifyIdx]
          | succ m =>
              simp only [modifyIdx, List.get?_cons_succ, ih, Nat.succ_eq_add_one]
              by_cases h : m = n
              · simp [h]
              · simp [h]

theorem modifyIdx_same_elem (l : List α) (i : Nat) (f : α → α) (x : α)
    (hx : l.get? i = some x) : (modifyIdx l i f).get? i = some (f x) := by
  rw [get?_modifyIdx, if_pos rfl, hx]
  rfl

/-! ## Claim C1: fold/unfold round trip -/

theorem roundtrip_lines_eq (L : List TreeLine) (f M dInd : Nat) (l : TreeLine)
    (hfl : L.get? f = some l) (hnext : l.next = f + 1)
    (hMprev : ∀ lM, L.get? M = some lM → lM.prev = some dInd) :
    modifyIdx (modifyIdx (modifyIdx (modifyIdx L
        M (fun l0 => { l0 with prev := some f }))
        f (fun l0 => { l0 with next := M }))
        M (fun l0 => { l0 with prev := some dInd }))
        f (fun l0 => { l0 with next := f + 1 }) = L := by
  apply List.ext
  intro j
  simp only [get?_modifyIdx]
  by_cases hjf : j = f
  · subst hjf
    by_cases hjM : j = M
    · subst hjM
      simp only [if_pos rfl, hfl]
      have hprev := hMprev l hfl
      cases l with
      | mk nd px pv nx =>
          simp only [Option.map_some] at *
          simp_all
    · simp only [if_pos rfl, if_neg hjM, hfl]
      cases l with
      | mk nd px pv nx =>
          simp only [Option.map_some] at *
          simp_all
  · by_cases hjM : j = M
    · subst hjM
      simp only [if_neg hjf, if_pos rfl]
      cases hLj : L.get? j with
      | none => simp
      | some lM =>
          have hprev := hMprev lM hLj
          cases lM with
          | mk nd px pv nx =>
              simp only [Option.map_some] at *
              simp_all
    · simp [if_neg hjf, if_neg hjM]

theorem roundtrip_lines_eq_noM (L : List TreeLine) (f M : Nat) (l : TreeLine)
    (hfl : L.get? f = some l) (hnext : l.next = f + 1) :
    modifyIdx (modifyIdx L f (fun l0 => { l0 with next := M }))
        f (fun l0 => { l0 with next := f + 1 }) = L := by
  apply List.ext
  intro j
  simp only [get?_modifyIdx]
  by_cases hjf : j = f
  · subst hjf
    simp only [if_pos rfl, hfl]
    cases l with
    | mk nd px pv nx =>
        simp only [Option.map_some] at *
        simp_all
  · simp [if_neg hjf]

/-- Running `unfold_focus` on the state `fold_focus` produced when the
subtree successor was a real line `M`. -/
theorem unfold_after_fold_M
    (st : TState) (f M dInd : Nat) (l : TreeLine)
    (hcount : st.lines.count = st.lines.lines.length)
    (hf : lookupA st.lines.inds st.focused = some f)
    (hfl : st.lines.lines.get? f = some l)
    (hnext : l.next = f + 1)
    (hdlf : lookupA st.lines.inds (deepestLastDesc st.arena st.arena.length st.focused)
            = some dInd)
    (hMprev : ∀ lM, st.lines.lines.get? M = some lM → lM.prev = some dInd)
    (hlt : M < st.lines.count) :
    unfold_focus { st with lines := { st.lines with
        lines := modifyIdx
                  (modifyIdx st.lines.lines M (fun l0 => { l0 with prev := some f }))
                  f (fun l0 => { l0 with next := M })
        folded := f :: st.lines.folded } } = some st := by
  have hMlt : M < st.lines.lines.length := hcount ▸ hlt
  have hlM : st.lines.lines.get? M = some (st.lines.lines.get ⟨M, hMlt⟩) :=
    List.get?_eq_get hMlt
  set L2 := modifyIdx
      (modifyIdx st.lines.lines M (fun l0 => { l0 with prev := some f }))
      f (fun l0 => { l0 with next := M }) with hL2
  have hget2f : L2.get? f = some
      (if f = M then { l with prev := some f, next := M } else { l with next := M }) := by
    rw [hL2, get?_modifyIdx, if_pos rfl, get?_modifyIdx]
    by_cases hfM : f = M
    · rw [if_pos hfM, hfl]
      simp [hfM]
    · rw [if_neg hfM, hfl]
      simp [hfM]
  have hnext2 : (if f = M then { l with prev := some f, next := M }
                 else { l with next := M } : TreeLine).next = M := by
    by_cases hfM : f = M <;> simp [hfM]
  have hget2M : ∃ lM2, L2.get? M = some lM2 := by
    by_cases hfM : f = M
    · exact ⟨_, hfM ▸ hget2f⟩
    · refine ⟨{ (st.lines.lines.get ⟨M, hMlt⟩) with prev := some f }, ?_⟩
      rw [hL2, get?_modifyIdx, if_neg (fun h => hfM h.symm), get?_modifyIdx, if_pos rfl, hlM]
      rfl
  obtain ⟨lM2, hlM2⟩ := hget2M
  have hget3f : (modifyIdx L2 M fun l0 => { l0 with prev := some dInd }).get? f = some
      (if f = M then { l with prev := some dInd, next := M }
       else { l with next := M }) := by
    rw [get?_modifyIdx]
    by_cases hfM : f = M
    · rw [if_pos hfM, hget2f]
      simp [hfM]
    · rw [if_neg hfM, hget2f]
      simp [hfM]
  rw [unfold_focus]
  simp only [Option.bind_eq_bind, Option.pure_def, Option.some_bind]
  rw [hf]
  simp only [Option.bind_eq_bind, Option.pure_def, Option.some_bind]
  rw [hget2f]
  simp only [Option.bind_eq_bind, Option.pure_def, Option.some_bind]
  rw [hnext2]
  simp only [if_pos hlt]
  rw [hdlf]
  simp only [Option.bind_eq_bind, Option.pure_def, Option.some_bind]
  rw [hlM2]
  simp only [Option.bind_eq_bind, Option.pure_def, Option.some_bind]
  rw [hget3f]
  simp only [Option.bind_eq_bind, Option.pure_def, Option.some_bind]
  have herase : (f :: st.lines.folded).erase f = st.lines.folded :=
    List.erase_cons_head f st.lines.folded
  have hfinal := roundtrip_lines_eq st.lines.lines f M dInd l hfl hnext hMprev
  rw [← hL2] at hfinal
  simp only [herase, hfinal]

/-- Running `unfold_focus` on the state `fold_focus` produced when the
subtree successor was one-past-the-end. -/
theorem unfold_after_fold_noM
    (st : TState) (f M : Nat) (l : TreeLine)
    (hf : lookupA st.lines.inds st.focused = some f)
    (hfl : st.lines.lines.get? f = some l)
    (hnext : l.next = f + 1)
    (hlt : ¬ M < st.lines.count) :
    unfold_focus { st with lines := { st.lines with
        lines := modifyIdx st.lines.lines f (fun l0 => { l0 with next := M })
        folded := f :: st.lines.folded } } = some st := by
  have hget2f : (modifyIdx st.lines.lines f fun l0 => { l0 with next := M }).get? f
      = some { l with next := M } := by
    rw [get?_modifyIdx, if_pos rfl, hfl]
    rfl
  rw [unfold_focus]
  simp only [Option.bind_eq_bind, Option.pure_def, Option.some_bind]
  rw [hf]
  simp only [Option.bind_eq_bind, Option.pure_def, Option.some_bind]
  rw [hget2f]
  simp only [Option.bind_eq_bind, Option.pure_def, Option.some_bind]
  simp only [if_neg hlt]
  have herase : (f :: st.lines.folded).erase f = st.lines.folded :=
    List.erase_cons_head f st.lines.folded
  have hfinal := roundtrip_lines_eq_noM st.lines.lines f M l hfl hnext
  simp only [herase, hfinal]

/-- C1 (amended, general form): folding the focused directory line and then
unfolding it restores the state exactly, **provided** the pre-fold state
already satisfies what `unfold_focus` will rebuild: the focused line's
`next` is its index + 1, it is not folded, and the `prev` of the focused
node's subtree-successor line (when that is a real line) is the line index
of the focused node's deepest last descendant.  These conditions hold right
after the initial `draw`, but a fold inside the focused subtree can break
the last one (see the C1 counterexample). -/
theorem fold_unfold_cond
    (st : TState) (nd : ANode) (f : Nat) (l : TreeLine)
    (so : Option Nat) (M : Nat) (dInd : Nat)
    (hnd : st.arena.get? st.focused = some nd)
    (hdir : nd.entry.de.ftype = some FKind.dir)
    (hcount : st.lines.count = st.lines.lines.length)
    (hf : lookupA st.lines.inds st.focused = some f)
    (hfl : st.lines.lines.get? f = some l)
    (hnext : l.next = f + 1)
    (hnotfolded : st.lines.folded.contains f = false)
    (hsucc : subtreeSuccessor st.arena st.arena.length (some st.focused) = some so)
    (hMsome : ∀ nn, so = some nn → lookupA st.lines.inds nn = some M)
    (hMnone : so = none → M = st.lines.count)
    (hdlf : lookupA st.lines.inds (deepestLastDesc st.arena st.arena.length st.focused)
            = some dInd)
    (hMprev : ∀ lM, st.lines.lines.get? M = some lM → lM.prev = some dInd) :
    (fold_focus st).bind unfold_focus = some st := by
  have hflt : f < st.lines.lines.length := by
    by_contra hge
    rw [List.get?_eq_none.2 (Nat.le_of_not_lt hge)] at hfl
    exact Option.noConfusion hfl
  have hdne : ¬ (FKind.dir ≠ FKind.dir) := by simp
  cases so with
  | some nn =>
      have hMv := hMsome nn rfl
      by_cases hlt : M < st.lines.count
      · have hMlt : M < st.lines.lines.length := hcount ▸ hlt
        have hlM : st.lines.lines.get? M = some (st.lines.lines.get ⟨M, hMlt⟩) :=
          List.get?_eq_get hMlt
        have hfold : fold_focus st = some { st with lines := { st.lines with
            lines := modifyIdx
                      (modifyIdx st.lines.lines M (fun l0 => { l0 with prev := some f }))
                      f (fun l0 => { l0 with next := M })
            folded := f :: st.lines.folded } } := by
          rw [fold_focus, hnd]
          simp only [Option.bind_eq_bind, Option.pure_def, Option.some_bind, hdir]
          rw [if_neg hdne]
          rw [hsucc]
          simp only [Option.bind_eq_bind, Option.pure_def, Option.some_bind]
          rw [hMv]
          simp only [Option.bind_eq_bind, Option.pure_def, Option.some_bind, if_pos hlt]
          rw [hf]
          simp only [Option.bind_eq_bind, Option.pure_def, Option.some_bind]
          rw [hlM]
          simp only [Option.bind_eq_bind, Option.pure_def, Option.some_bind,
            hnotfolded, Bool.false_eq_true, if_false]
          have hgetf : (modifyIdx st.lines.lines M fun l0 => { l0 with prev := some f }).get? f
              = some (if f = M then { l with prev := some f } else l) := by
            rw [get?_modifyIdx]
            by_cases hfM : f = M
            · rw [if_pos hfM, hfl]
              simp [hfM]
            · rw [if_neg hfM, hfl]
              simp [hfM]
          rw [hgetf]
          simp only [Option.bind_eq_bind, Option.pure_def, Option.some_bind]
        rw [hfold]
        simp only [Option.bind_eq_bind, Option.some_bind]
        exact unfold_after_fold_M st f M dInd l hcount hf hfl hnext hdlf hMprev hlt
      · have hfold : fold_focus st = some { st with lines := { st.lines with
            lines := modifyIdx st.lines.lines f (fun l0 => { l0 with next := M })
            folded := f :: st.lines.folded } } := by
          rw [fold_focus, hnd]
          simp only [Option.bind_eq_bind, Option.pure_def, Option.some_bind, hdir]
          rw [if_neg hdne]
          rw [hsucc]
          simp only [Option.bind_eq_bind, Option.pure_def, Option.some_bind]
          rw [hMv]
          simp only [Option.bind_eq_bind, Option.pure_def, Option.some_bind, if_neg hlt]
          rw [hf]
          simp only [Option.bind_eq_bind, Option.pure_def, Option.some_bind,
            hnotfolded, Bool.false_eq_true, if_false]
          rw [hfl]
          simp only [Option.bind_eq_bind, Option.pure_def, Option.some_bind]
        rw [hfold]
        simp only [Option.bind_eq_bind, Option.some_bind]
        exact unfold_after_fold_noM st f M l hf hfl hnext hlt
  | none =>
      have hMv := hMnone rfl
      subst hMv
      have hlt : ¬ st.lines.count < st.lines.count := lt_irrefl _
      have hfold : fold_focus st = some { st with lines := { st.lines with
          lines := modifyIdx st.lines.lines f (fun l0 => { l0 with next := st.lines.count })
          folded := f :: st.lines.folded } } := by
        rw [fold_focus, hnd]
        simp only [Option.bind_eq_bind, Option.pure_def, Option.some_bind, hdir]
        rw [if_neg hdne]
        rw [hsucc]
        simp only [Option.bind_eq_bind, Option.pure_def, Option.some_bind, if_neg hlt]
        rw [hf]
        simp only [Option.bind_eq_bind, Option.pure_def, Option.some_bind,
          hnotfolded, Bool.false_eq_true, if_false]
        rw [hfl]
        simp only [Option.bind_eq_bind, Option.pure_def, Option.some_bind]
      rw [hfold]
      simp only [Option.bind_eq_bind, Option.some_bind]
      exact unfold_after_fold_noM st f st.lines.count l hf hfl hnext hlt

/-- C1 counterexample: in the reachable state `nestedFoldedState` (the
initial draw of `nestedStream` after Down, ToggleFold on B, Up), the focus
sits on directory A while its descendant B is folded.  Folding A and then
unfolding A moves line 4's `prev` from B's line (2) to f's line (3): the
round trip does not restore `prev` for every line. -/
theorem C1_counterexample :
    (entryOf nestedFoldedState.arena nestedFoldedState.focused).map FsEntry.ft
      = some FileType.dir ∧
    prevOfLine nestedFoldedState 4 = some 2 ∧
    ((fold_focus nestedFoldedState).bind unfold_focus).map
        (fun st => prevOfLine st 4) = some (some 3) := by
  decide

/-! ## Arena lemmas -/

theorem get?_some_lt {α : Type} {l : List α} {i : Nat} {x : α}
    (h : l.get? i = some x) : i < l.length := by
  by_contra hge
  rw [List.get?_eq_none.2 (Nat.le_of_not_lt hge)] at h
  exact Option.noConfusion h

theorem parentOf_some_lt {a : Arena} {i p : Nat} (h : parentOf a i = some p) :
    i < a.length := by
  unfold parentOf at h
  cases hg : a.get? i with
  | none => rw [hg] at h; exact Option.noConfusion h
  | some nd => exact get?_some_lt hg

theorem lookupA_cons (x : Nat × Nat) (l : List (Nat × Nat)) (k : Nat) :
    lookupA (x :: l) k = if x.1 = k then some x.2 else lookupA l k := rfl

theorem lookupA_append_of_no_key (pre l : List (Nat × Nat)) (k : Nat)
    (h : ∀ p ∈ pre, p.1 ≠ k) : lookupA (pre ++ l) k = lookupA l k := by
  induction pre with
  | nil => rfl
  | cons x rest ih =>
      rw [List.cons_append, lookupA_cons, if_neg (h x (List.mem_cons_self x rest))]
      exact ih (fun p hp => h p (List.mem_cons_of_mem x hp))

/-- Facts about `add_child_to_tree a node data`; `nid` is the fresh id. -/
theorem add_child_length (a : Arena) (node : Nat) (data : FsEntry) :
    (add_child_to_tree a node data).1.length = a.length + 1 := by
  unfold add_child_to_tree
  rw [length_modifyIdx, List.length_append]
  rfl

theorem add_child_get?_new (a : Arena) (node : Nat) (data : FsEntry)
    (hn : node < a.length) :
    (add_child_to_tree a node data).1.get? a.length =
      some { parent := some node, children := [], entry := data } := by
  unfold add_child_to_tree
  rw [get?_modifyIdx, if_neg (by omega : ¬ a.length = node)]
  rw [List.get?_append_right (Nat.le_refl _)]
  simp

theorem add_child_get?_node (a : Arena) (node : Nat) (data : FsEntry)
    (hn : node < a.length) :
    (add_child_to_tree a node data).1.get? node =
      (a.get? node).map (fun n => { n with children := n.children ++ [a.length] }) := by
  unfold add_child_to_tree
  rw [get?_modifyIdx, if_pos rfl, List.get?_append hn]

theorem add_child_get?_other (a : Arena) (node : Nat) (data : FsEntry)
    (j : Nat) (hj : j ≠ node) (hjl : j < a.length) :
    (add_child_to_tree a node data).1.get? j = a.get? j := by
  unfold add_child_to_tree
  rw [get?_modifyIdx, if_neg hj, List.get?_append hjl]

theorem add_child_get?_beyond (a : Arena) (node : Nat) (data : FsEntry)
    (j : Nat) (hj : a.length < j) :
    (add_child_to_tree a node data).1.get? j = none := by
  apply List.get?_eq_none.2
  rw [add_child_length]
  omega

theorem add_child_parentOf (a : Arena) (node : Nat) (data : FsEntry)
    (hn : node < a.length) (j : Nat) (hjl : j < a.length) :
    parentOf (add_child_to_tree a node data).1 j = parentOf a j := by
  unfold parentOf
  by_cases hj : j = node
  · subst hj
    rw [add_child_get?_node a j data hn]
    cases a.get? j <;> rfl
  · rw [add_child_get?_other a node data j hj hjl]

theorem add_child_parentOf_new (a : Arena) (node : Nat) (data : FsEntry)
    (hn : node < a.length) :
    parentOf (add_child_to_tree a node data).1 a.length = some node := by
  unfold parentOf
  rw [add_child_get?_new a node data hn]
  rfl

theorem add_child_parentOf_beyond (a : Arena) (node : Nat) (data : FsEntry)
    (j : Nat) (hj : a.length < j) :
    parentOf (add_child_to_tree a node data).1 j = none := by
  unfold parentOf
  rw [add_child_get?_beyond a node data j hj]
  rfl

theorem add_child_childrenOf_node (a : Arena) (node : Nat) (data : FsEntry)
    (hn : node < a.length) :
    childrenOf (add_child_to_tree a node data).1 node =
      childrenOf a node ++ [a.length] := by
  unfold childrenOf
  rw [add_child_get?_node a node data hn]
  cases hg : a.get? node with
  | none => exact absurd hn (not_lt.2 (List.get?_eq_none.1 hg))
  | some nd => rfl

theorem add_child_childrenOf_new (a : Arena) (node : Nat) (data : FsEntry)
    (hn : node < a.length) :
    childrenOf (add_child_to_tree a node data).1 a.length = [] := by
  unfold childrenOf
  rw [add_child_get?_new a node data hn]
  rfl

theorem add_child_childrenOf_other (a : Arena) (node : Nat) (data : FsEntry)
    (j : Nat) (hj : j ≠ node) (hn : node < a.length) :
    childrenOf (add_child_to_tree a node data).1 j = childrenOf a j := by
  unfold childrenOf
  by_cases hjl : j < a.length
  · rw [add_child_get?_other a node data j hj hjl]
  · by_cases hje : j = a.length
    · subst hje
      rw [add_child_get?_new a node data hn]
      have hnone : a.get? a.length = none := List.get?_eq_none.2 (Nat.le_refl _)
      rw [hnone]
      rfl
    · have hgt : a.length < j := by omega
      rw [add_child_get?_beyond a node data j hgt]
      have : a.get? j = none := List.get?_eq_none.2 (by omega)
      rw [this]

/-- Appending a child to an existing node preserves arena well-formedness. -/
theorem wfAr_add (a : Arena) (node : Nat) (data : FsEntry)
    (h : WfAr a) (hn : node < a.length) :
    WfAr (add_child_to_tree a node data).1 := by
  have hlen := add_child_length a node data
  have hz : 0 < a.length := by
    cases a with
    | nil => exact absurd rfl h.ne
    | cons x xs => simp
  constructor
  · intro hemp
    have : (add_child_to_tree a node data).1.length = 0 := by rw [hemp]; rfl
    omega
  · -- parentsLt
    intro i p hp
    by_cases hil : i < a.length
    · exact h.parentsLt i p (by rw [← add_child_parentOf a node data hn i hil]; exact hp)
    · by_cases hie : i = a.length
      · subst hie
        rw [add_child_parentOf_new a node data hn] at hp
        injection hp with h1
        omega
      · rw [add_child_parentOf_beyond a node data i (by omega)] at hp
        exact Option.noConfusion hp
  · -- childGt
    intro i c hc
    by_cases hie : i = node
    · subst hie
      rw [add_child_childrenOf_node a i data hn] at hc
      rcases List.mem_append.1 hc with hl | hr
      · exact h.childGt i c hl
      · have : c = a.length := by simpa using hr
        omega
    · rw [add_child_childrenOf_other a node data i hie hn] at hc
      exact h.childGt i c hc
  · -- childLtLen
    intro i c hc
    by_cases hie : i = node
    · subst hie
      rw [add_child_childrenOf_node a i data hn] at hc
      rcases List.mem_append.1 hc with hl | hr
      · have := h.childLtLen i c hl
        omega
      · have : c = a.length := by simpa using hr
        omega
    · rw [add_child_childrenOf_other a node data i hie hn] at hc
      have := h.childLtLen i c hc
      omega
  · -- childParent
    intro i c hc
    by_cases hie : i = node
    · subst hie
      rw [add_child_childrenOf_node a i data hn] at hc
      rcases List.mem_append.1 hc with hl | hr
      · have hcl := h.childLtLen i c hl
        rw [add_child_parentOf a i data hn c hcl]
        exact h.childParent i c hl
      · have hce : c = a.length := by simpa using hr
        subst hce
        exact add_child_parentOf_new a i data hn
    · rw [add_child_childrenOf_other a node data i hie hn] at hc
      have hcl := h.childLtLen i c hc
      rw [add_child_parentOf a node data hn c hcl]
      exact h.childParent i c hc
  · -- parentChild
    intro i p hp
    by_cases hil : i < a.length
    · rw [add_child_parentOf a node data hn i hil] at hp
      have hmem := h.parentChild i p hp
      by_cases hpe : p = node
      · subst hpe
        rw [add_child_childrenOf_node a p data hn]
        exact List.mem_append_left _ hmem
      · rw [add_child_childrenOf_other a node data p hpe hn]
        exact hmem
    · by_cases hie : i = a.length
      · subst hie
        rw [add_child_parentOf_new a node data hn] at hp
        have hpn : p = node := by injection hp with h1; omega
        subst hpn
        rw [add_child_childrenOf_node a p data hn]
        exact List.mem_append_right _ (by simp)
      · rw [add_child_parentOf_beyond a node data i (by omega)] at hp
        exact Option.noConfusion hp
  · -- childSorted
    intro i
    by_cases hie : i = node
    · subst hie
      rw [add_child_childrenOf_node a i data hn]
      rw [List.pairwise_append]
      refine ⟨h.childSorted i, List.pairwise_singleton _ _, ?_⟩
      intro x hx y hy
      have hxl := h.childLtLen i x hx
      have hye : y = a.length := by simpa using hy
      omega
    · rw [add_child_childrenOf_other a node data i hie hn]
      exact h.childSorted i
  · -- rootParentNone
    rw [add_child_parentOf a node data hn 0 hz]
    exact h.rootParentNone
  · -- nonRootParent
    intro i hi hil
    by_cases hil2 : i < a.length
    · rw [add_child_parentOf a node data hn i hil2]
      exact h.nonRootParent i hi hil2
    · have hie : i = a.length := by omega
      subst hie
      rw [add_child_parentOf_new a node data hn]
      exact Option.noConfusion

/-- Appending a child preserves "every entry has a file type". -/
theorem ftype_add (a : Arena) (node : Nat) (data : FsEntry)
    (h : ∀ i nd, a.get? i = some nd → nd.entry.de.ftype ≠ none)
    (hd : data.de.ftype ≠ none) (hn : node < a.length) :
    ∀ i nd, (add_child_to_tree a node data).1.get? i = some nd →
      nd.entry.de.ftype ≠ none := by
  intro i nd hg
  by_cases hil : i < a.length
  · by_cases hie : i = node
    · subst hie
      rw [add_child_get?_node a i data hn] at hg
      cases hgo : a.get? i with
      | none => rw [hgo] at hg; exact Option.noConfusion hg
      | some nd0 =>
          rw [hgo] at hg
          have : nd = { nd0 with children := nd0.children ++ [a.length] } := by
            injection hg with h1
            exact h1.symm
          subst this
          exact h i nd0 hgo
    · rw [add_child_get?_other a node data i hie hil] at hg
      exact h i nd hg
  · by_cases hie : i = a.length
    · subst hie
      rw [add_child_get?_new a node data hn] at hg
      have : nd = { parent := some node, children := [], entry := data } := by
        injection hg with h1
        exact h1.symm
      subst this
      exact hd
    · rw [add_child_get?_beyond a node data i (by omega)] at hg
      exact Option.noConfusion hg

theorem walkUp_lt (a : Arena) (h : WfAr a) :
    ∀ d curr c, curr < a.length → walkUp a curr d = some c → c < a.length := by
  intro d
  induction d with
  | zero =>
      intro curr c hc hw
      rw [walkUp] at hw
      injection hw with h1
      omega
  | succ n ih =>
      intro curr c hc hw
      rw [walkUp] at hw
      cases hp : parentOf a curr with
      | none => rw [hp] at hw; exact Option.noConfusion hw
      | some p =>
          rw [hp] at hw
          exact ih p c (by have := h.parentsLt curr p hp; omega) hw

theorem determine_mem (ws : List WItem) (fse : FsEntry) (o : Bool) :
    ∀ w ∈ (determine_place_in_tree ws fse o).2.1, w ∈ ws := by
  induction ws generalizing fse with
  | nil => simp [determine_place_in_tree]
  | cons x rest ih =>
      intro w hw
      match x with
      | Except.ok nxt =>
          by_cases h : (o && !is_or_points_to_dir nxt) = true
          · rw [determine_place_in_tree, if_pos h] at hw
            exact List.mem_cons_of_mem _ (ih fse w hw)
          · rw [determine_place_in_tree, if_neg h] at hw
            exact hw
      | Except.error (WalkError.withPath p (WalkInner.io IOKind.permissionDenied)) =>
          by_cases h : p = fse.de.path
          · rw [determine_place_in_tree, if_pos h] at hw
            exact List.mem_cons_of_mem _ (ih _ w hw)
          · rw [determine_place_in_tree, if_neg h] at hw
            exact List.mem_cons_of_mem _ (ih _ w hw)
      | Except.error (WalkError.withPath p (WalkInner.io IOKind.notFound)) =>
          exact List.mem_cons_of_mem _ (ih _ w hw)
      | Except.error (WalkError.withPath p (WalkInner.io IOKind.otherKind)) =>
          exact List.mem_cons_of_mem _ (ih _ w hw)
      | Except.error (WalkError.withPath p WalkInner.nonIo) =>
          exact List.mem_cons_of_mem _ (ih _ w hw)
      | Except.error WalkError.plain =>
          exact List.mem_cons_of_mem _ (ih _ w hw)

theorem determine_de (ws : List WItem) (fse : FsEntry) (o : Bool) :
    (determine_place_in_tree ws fse o).2.2.de = fse.de := by
  induction ws generalizing fse with
  | nil => rfl
  | cons x rest ih =>
      match x with
      | Except.ok nxt =>
          by_cases h : (o && !is_or_points_to_dir nxt) = true
          · rw [determine_place_in_tree, if_pos h]
            exact ih fse
          · rw [determine_place_in_tree, if_neg h]
      | Except.error (WalkError.withPath p (WalkInner.io IOKind.permissionDenied)) =>
          by_cases h : p = fse.de.path
          · rw [determine_place_in_tree, if_pos h]
            exact ih _
          · rw [determine_place_in_tree, if_neg h]
            exact ih _
      | Except.error (WalkError.withPath p (WalkInner.io IOKind.notFound)) => exact ih _
      | Except.error (WalkError.withPath p (WalkInner.io IOKind.otherKind)) => exact ih _
      | Except.error (WalkError.withPath p WalkInner.nonIo) => exact ih _
      | Except.error WalkError.plain => exact ih _

theorem wfStream_sub {s s' : List WItem} (h : WfStream s)
    (hsub : ∀ w ∈ s', w ∈ s) : WfStream s' :=
  fun w hw => h w (hsub w hw)

theorem wfStream_tail {x : WItem} {s : List WItem} (h : WfStream (x :: s)) :
    WfStream s :=
  fun w hw => h w (List.mem_cons_of_mem x hw)

theorem wfStream_head_ftype {de : WDirEntry} {s : List WItem}
    (h : WfStream (Except.ok de :: s)) : de.ftype ≠ none := by
  have hh := h (Except.ok de) (List.mem_cons_self _ _)
  simp only [wOk] at hh
  exact Option.isSome_iff_ne_none.1 hh

/-- The singleton arena holding only the root is well-formed. -/
theorem wfAr_root (e : FsEntry) :
    WfAr [{ parent := none, children := [], entry := e }] := by
  constructor
  · simp
  · intro i p hp
    cases i with
    | zero => simp [parentOf] at hp
    | succ n => simp [parentOf, List.get?] at hp
  · intro i c hc
    cases i with
    | zero => simp [childrenOf] at hc
    | succ n => simp [childrenOf, List.get?] at hc
  · intro i c hc
    cases i with
    | zero => simp [childrenOf] at hc
    | succ n => simp [childrenOf, List.get?] at hc
  · intro i c hc
    cases i with
    | zero => simp [childrenOf] at hc
    | succ n => simp [childrenOf, List.get?] at hc
  · intro i p hp
    cases i with
    | zero => simp [parentOf] at hp
    | succ n => simp [parentOf, List.get?] at hp
  · intro i
    cases i with
    | zero => simp [childrenOf]
    | succ n => simp [childrenOf, List.get?]
  · simp [parentOf]
  · intro i hi hil
    simp at hil
    omega

theorem buildLoop_ok_inv (o : Bool) :
    ∀ fuel ws a curr nf nd a' nf' nd',
      WfAr a → curr < a.length →
      (∀ i n0, a.get? i = some n0 → n0.entry.de.ftype ≠ none) →
      WfStream ws →
      buildLoop o fuel ws a curr nf nd = LoopRes.ok a' nf' nd' →
      WfAr a' ∧ (∀ i n0, a'.get? i = some n0 → n0.entry.de.ftype ≠ none) := by
  intro fuel
  induction fuel with
  | zero =>
      intro ws a curr nf nd a' nf' nd' hwf hc hft hws hb
      cases ws with
      | nil =>
          simp only [buildLoop] at hb
          injection hb with e1 e2 e3
          subst e1
          exact ⟨hwf, hft⟩
      | cons w rest =>
          cases w with
          | ok de =>
              simp only [buildLoop] at hb
              exact LoopRes.noConfusion hb
          | error e =>
              simp only [buildLoop] at hb
              exact LoopRes.noConfusion hb
  | succ n ih =>
      intro ws a curr nf nd a' nf' nd' hwf hc hft hws hb
      cases ws with
      | nil =>
          simp only [buildLoop] at hb
          injection hb with e1 e2 e3
          subst e1
          exact ⟨hwf, hft⟩
      | cons w rest =>
          cases w with
          | error e =>
              simp only [buildLoop] at hb
              exact LoopRes.noConfusion hb
          | ok de =>
              simp only [buildLoop] at hb
              have hde : de.ftype ≠ none := wfStream_head_ftype hws
              by_cases hskip : (!is_or_points_to_dir de && o) = true
              · rw [if_pos hskip] at hb
                exact ih rest a curr nf nd a' nf' nd' hwf hc hft (wfStream_tail hws) hb
              · rw [if_neg hskip] at hb
                rcases hres : determine_place_in_tree rest (de_to_fsentry de) o with
                  ⟨dc, rest', fse'⟩
                rw [hres] at hb
                have hfde : fse'.de = de := by
                  have := determine_de rest (de_to_fsentry de) o
                  rw [hres] at this
                  exact this
                have hfft : fse'.de.ftype ≠ none := by rw [hfde]; exact hde
                have hws' : WfStream rest' := by
                  apply wfStream_sub (wfStream_tail hws)
                  intro w hw
                  have := determine_mem rest (de_to_fsentry de) o w
                  rw [hres] at this
                  exact this hw
                have hwfA := wfAr_add a curr fse' hwf hc
                have hftA := ftype_add a curr fse' hft hfft hc
                have hlenA := add_child_length a curr fse'
                have hsnd : (add_child_to_tree a curr fse').2 = a.length := rfl
                cases dc with
                | nextIsFirst =>
                    exact ih rest' (add_child_to_tree a curr fse').1
                      (add_child_to_tree a curr fse').2 _ _ a' nf' nd' hwfA
                      (by rw [hsnd, hlenA]; omega) hftA hws' hb
                | isnt =>
                    exact ih rest' (add_child_to_tree a curr fse').1 curr _ _ a' nf' nd'
                      hwfA (by rw [hlenA]; omega) hftA hws' hb
                | last d =>
                    replace hb :
                        (match walkUp (add_child_to_tree a curr fse').1 curr d with
                         | none => LoopRes.panicked
                         | some c =>
                             buildLoop o n rest' (add_child_to_tree a curr fse').1 c
                               (if is_or_points_to_dir de then nf else nf + 1)
                               (if is_or_points_to_dir de then nd + 1 else nd)) =
                          LoopRes.ok a' nf' nd' := hb
                    cases hwk : walkUp (add_child_to_tree a curr fse').1 curr d with
                    | none => rw [hwk] at hb; exact LoopRes.noConfusion hb
                    | some c =>
                        rw [hwk] at hb
                        have hcl : c < (add_child_to_tree a curr fse').1.length :=
                          walkUp_lt _ hwfA d curr c (by rw [hlenA]; omega) hwk
                        exact ih rest' (add_child_to_tree a curr fse').1 c _ _ a' nf' nd'
                          hwfA hcl hftA hws' hb

/-- A successful `fs_to_tree` yields a well-formed arena rooted at 0, all of
whose entries carry a file type. -/
theorem fs_to_tree_ok_inv (rootDir : String) (stream : List WItem) (o : Bool)
    (a : Arena) (root nf nd : Nat) (hws : WfStream stream)
    (h : fs_to_tree rootDir stream o = BuildResult.ok a root nf nd) :
    WfAr a ∧ root = 0 ∧
      (∀ i n0, a.get? i = some n0 → n0.entry.de.ftype ≠ none) := by
  cases stream with
  | nil => exact BuildResult.noConfusion h
  | cons w rest =>
      cases w with
      | error e =>
          cases e with
          | withPath p inner => exact BuildResult.noConfusion h
          | plain => exact BuildResult.noConfusion h
      | ok de =>
          simp only [fs_to_tree] at h
          cases hb : buildLoop o rest.length rest
              [{ parent := none, children := [], entry := root_to_fsentry rootDir de }]
              0 0 0 with
          | panicked => rw [hb] at h; exact BuildResult.noConfusion h
          | ok a1 nf1 nd1 =>
              rw [hb] at h
              injection h with e1 e2 e3 e4
              subst e1
              subst e2
              have hde : de.ftype ≠ none := wfStream_head_ftype hws
              have hroot := wfAr_root (root_to_fsentry rootDir de)
              have hft0 : ∀ i n0,
                  ([{ parent := none, children := [],
                      entry := root_to_fsentry rootDir de }] : Arena).get? i = some n0 →
                    n0.entry.de.ftype ≠ none := by
                intro i n0 hg
                cases i with
                | zero =>
                    simp only [List.get?] at hg
                    injection hg with h1
                    subst h1
                    exact hde
                | succ m => simp [List.get?] at hg
              have := buildLoop_ok_inv o rest.length rest _ 0 0 0 a1 nf1 nd1
                hroot (by simp) hft0 (wfStream_tail hws) hb
              exact ⟨this.1, rfl, this.2⟩

/-! ## Ancestry lemmas -/

theorem desc_le {a : Arena} (hp : ∀ i p, parentOf a i = some p → p < i)
    {n i : Nat} (h : Desc a n i) : n ≤ i := by
  induction h with
  | refl => exact Nat.le_refl _
  | step hd hpar ih =>
      have := hp _ _ hpar
      omega

theorem desc_inv {a : Arena} {n i : Nat} (h : Desc a n i) :
    i = n ∨ ∃ p, parentOf a i = some p ∧ Desc a n p := by
  cases h with
  | refl => exact Or.inl rfl
  | step hd hpar => exact Or.inr ⟨_, hpar, hd⟩

theorem desc_trans {a : Arena} {n m k : Nat}
    (h1 : Desc a n m) (h2 : Desc a m k) : Desc a n k := by
  induction h2 with
  | refl => exact h1
  | step hd hpar ih => exact Desc.step ih hpar

theorem desc_linear {a : Arena} {m j : Nat} (h2 : Desc a m j) :
    ∀ {n}, Desc a n j → Desc a n m ∨ Desc a m n := by
  induction h2 with
  | refl =>
      intro n h1
      exact Or.inl h1
  | step hd hpar ih =>
      intro n h1
      rcases desc_inv h1 with he | ⟨p', hpar', hd'⟩
      · subst he
        exact Or.inr (Desc.step hd hpar)
      · rw [hpar] at hpar'
        injection hpar' with hpp
        rw [← hpp] at hd'
        exact ih hd'

theorem desc_sibling_disjoint {a : Arena} (hwf : WfAr a)
    {node c c' i : Nat} (hc : c ∈ childrenOf a node) (hc' : c' ∈ childrenOf a node)
    (hne : c ≠ c') (h1 : Desc a c i) (h2 : Desc a c' i) : False := by
  have hgt := hwf.childGt node c hc
  have hgt' := hwf.childGt node c' hc'
  rcases desc_linear h2 h1 with hcc | hcc
  · rcases desc_inv hcc with he | ⟨p, hpar, hd⟩
    · exact hne he.symm
    · rw [hwf.childParent node c' hc'] at hpar
      injection hpar with hpp
      rw [← hpp] at hd
      have := desc_le hwf.parentsLt hd
      omega
  · rcases desc_inv hcc with he | ⟨p, hpar, hd⟩
    · exact hne he
    · rw [hwf.childParent node c hc] at hpar
      injection hpar with hpp
      rw [← hpp] at hd
      have := desc_le hwf.parentsLt hd
      omega

theorem desc_root {a : Arena} (hwf : WfAr a) :
    ∀ i, i < a.length → Desc a 0 i := by
  intro i
  induction i using Nat.strong_induction_on with
  | _ i ih =>
      intro hil
      cases Nat.eq_zero_or_pos i with
      | inl h0 => subst h0; exact Desc.refl 0
      | inr hpos =>
          cases hpar : parentOf a i with
          | none => exact absurd hpar (hwf.nonRootParent i hpos hil)
          | some p =>
              have hlt := hwf.parentsLt i p hpar
              exact Desc.step (ih p hlt (by omega)) hpar

theorem desc_child {a : Arena} (hwf : WfAr a) {node i : Nat}
    (hd : Desc a node i) :
    i ≠ node → ∃ c, c ∈ childrenOf a node ∧ Desc a c i := by
  induction hd with
  | refl =>
      intro hne
      exact absurd rfl hne
  | @step p i0 hd hpar ih =>
      intro hne
      by_cases hpe : p = node
      · subst hpe
        exact ⟨i0, hwf.parentChild i0 p hpar, Desc.refl i0⟩
      · obtain ⟨c, hc, hcd⟩ := ih hpe
        exact ⟨c, hc, Desc.step hcd hpar⟩

theorem desc_of_child {a : Arena} (hwf : WfAr a) {node c i : Nat}
    (hc : c ∈ childrenOf a node) (hd : Desc a c i) : Desc a node i :=
  desc_trans (Desc.step (Desc.refl node) (hwf.childParent node c hc)) hd

/-! ## Indent-stack lemmas -/

theorem subIndentsF_stable {a : Arena}
    (hp : ∀ i p, parentOf a i = some p → p < i) :
    ∀ i f g, i ≤ f → i ≤ g → subIndentsF f a i = subIndentsF g a i := by
  intro i
  induction i using Nat.strong_induction_on with
  | _ i ih =>
      intro f g hf hg
      cases hpar : parentOf a i with
      | none =>
          cases f with
          | zero => cases g with
            | zero => rfl
            | succ g' => simp [subIndentsF, hpar]
          | succ f' => cases g with
            | zero => simp [subIndentsF, hpar]
            | succ g' => simp [subIndentsF, hpar]
      | some p =>
          have hpi := hp i p hpar
          cases f with
          | zero =>
              exact absurd hf (by omega)
          | succ f' =>
              cases g with
              | zero => exact absurd hg (by omega)
              | succ g' =>
                  simp only [subIndentsF, hpar]
                  rw [ih p hpi f' g' (by omega) (by omega)]

theorem subIndents_child {a : Arena}
    (hp : ∀ i p, parentOf a i = some p → p < i) {c p : Nat}
    (hpar : parentOf a c = some p) :
    subIndents a c = subIndents a p ++
      [if some c = lastChildOf a p then Indent.blank else Indent.bar] := by
  have hpc := hp c p hpar
  unfold subIndents
  cases hc : c with
  | zero => omega
  | succ c' =>
      simp only [subIndentsF, hc ▸ hpar]
      rw [subIndentsF_stable hp p c' p (by omega) (Nat.le_refl _)]

theorem depthOfF_stable {a : Arena}
    (hp : ∀ i p, parentOf a i = some p → p < i) :
    ∀ i f g, i ≤ f → i ≤ g → depthOfF f a i = depthOfF g a i := by
  intro i
  induction i using Nat.strong_induction_on with
  | _ i ih =>
      intro f g hf hg
      cases hpar : parentOf a i with
      | none =>
          cases f with
          | zero => cases g with
            | zero => rfl
            | succ g' => simp [depthOfF, hpar]
          | succ f' => cases g with
            | zero => simp [depthOfF, hpar]
            | succ g' => simp [depthOfF, hpar]
      | some p =>
          have hpi := hp i p hpar
          cases f with
          | zero => exact absurd hf (by omega)
          | succ f' =>
              cases g with
              | zero => exact absurd hg (by omega)
              | succ g' =>
                  simp only [depthOfF, hpar]
                  rw [ih p hpi f' g' (by omega) (by omega)]

theorem depthOf_child {a : Arena}
    (hp : ∀ i p, parentOf a i = some p → p < i) {c p : Nat}
    (hpar : parentOf a c = some p) :
    depthOf a c = depthOf a p + 1 := by
  have hpc := hp c p hpar
  unfold depthOf
  cases hc : c with
  | zero => omega
  | succ c' =>
      simp only [depthOfF, hc ▸ hpar]
      rw [depthOfF_stable hp p c' p (by omega) (Nat.le_refl _)]

/-- Number of indent pieces leading a non-root node's prefix: the parent's
stack length; together with the one branch piece this equals the depth. -/
theorem subIndents_length_eq_depth {a : Arena}
    (hp : ∀ i p, parentOf a i = some p → p < i) :
    ∀ i, (subIndents a i).length = depthOf a i := by
  intro i
  induction i using Nat.strong_induction_on with
  | _ i ih =>
      cases hpar : parentOf a i with
      | none =>
          unfold subIndents depthOf
          cases i with
          | zero => rfl
          | succ i' => simp [subIndentsF, depthOfF, hpar]
      | some p =>
          have hpi := hp i p hpar
          rw [subIndents_child hp hpar, depthOf_child hp hpar]
          rw [List.length_append]
          rw [ih p hpi]
          rfl

/-! ## TreeLines.add equations -/

theorem add_inds (tl : TreeLines) (n : Nat) (p : String) :
    (tl.add n p).inds = (n, tl.count) :: tl.inds := rfl

theorem add_lines (tl : TreeLines) (n : Nat) (p : String) :
    (tl.add n p).lines = tl.lines ++
      [{ node := n, pfx := p
         prev := if tl.count = 0 then none else some (tl.count - 1)
         next := tl.count + 1 }] := rfl

theorem add_count (tl : TreeLines) (n : Nat) (p : String) :
    (tl.add n p).count = tl.count + 1 := rfl

theorem add_folded (tl : TreeLines) (n : Nat) (p : String) :
    (tl.add n p).folded = tl.folded := rfl

/-- Core characterization of `drawFromA` on a well-formed arena: drawing
`node`'s subtree only appends to the projection, the new index entries are
exactly for proper descendants of `node`, and every proper descendant ends
up with a line recording it and carrying the prefix `pfxOf`. -/
theorem drawFromA_spec (a : Arena) (hwf : WfAr a) :
    ∀ fuel node indents tl,
      node < a.length → a.length ≤ fuel + node →
      indents = subIndents a node → tl.count = tl.lines.length →
      ∃ pre post,
        (drawFromA a fuel node indents tl).inds = pre ++ tl.inds ∧
        (drawFromA a fuel node indents tl).lines = tl.lines ++ post ∧
        (drawFromA a fuel node indents tl).count = tl.count + post.length ∧
        (drawFromA a fuel node indents tl).folded = tl.folded ∧
        (∀ pr ∈ pre, Desc a node pr.1 ∧ pr.1 ≠ node) ∧
        (∀ i, Desc a node i → i ≠ node →
          ∃ k l, lookupA (drawFromA a fuel node indents tl).inds i = some k ∧
            (drawFromA a fuel node indents tl).lines.get? k = some l ∧
            l.node = i ∧ l.pfx = pfxOf a i) := by
  intro fuel
  induction fuel using Nat.strong_induction_on with
  | _ fuel ihf =>
      intro node indents tl hnl hfl hind hcl
      cases fuel with
      | zero =>
          exact absurd hfl (by omega)
      | succ n =>
          have hinner :
              ∀ cs, List.Pairwise (· < ·) cs →
                (∀ c ∈ cs, c ∈ childrenOf a node) →
                ∀ tl0 : TreeLines, tl0.count = tl0.lines.length →
                ∃ pre post,
                  (cs.foldl
                    (fun tl c =>
                      let isLast := some c = lastChildOf a node
                      let pfx := indentsConcat indents ++
                        (if isLast then END_BRANCH else MID_BRANCH)
                      drawFromA a n c
                        (indents ++ [if isLast then Indent.blank else Indent.bar])
                        (tl.add c pfx)) tl0).inds = pre ++ tl0.inds ∧
                  (cs.foldl
                    (fun tl c =>
                      let isLast := some c = lastChildOf a node
                      let pfx := indentsConcat indents ++
                        (if isLast then END_BRANCH else MID_BRANCH)
                      drawFromA a n c
                        (indents ++ [if isLast then Indent.blank else Indent.bar])
                        (tl.add c pfx)) tl0).lines = tl0.lines ++ post ∧
                  (cs.foldl
                    (fun tl c =>
                      let isLast := some c = lastChildOf a node
                      let pfx := indentsConcat indents ++
                        (if isLast then END_BRANCH else MID_BRANCH)
                      drawFromA a n c
                        (indents ++ [if isLast then Indent.blank else Indent.bar])
                        (tl.add c pfx)) tl0).count = tl0.count + post.length ∧
                  (cs.foldl
                    (fun tl c =>
                      let isLast := some c = lastChildOf a node
                      let pfx := indentsConcat indents ++
                        (if isLast then END_BRANCH else MID_BRANCH)
                      drawFromA a n c
                        (indents ++ [if isLast then Indent.blank else Indent.bar])
                        (tl.add c pfx)) tl0).folded = tl0.folded ∧
                  (∀ pr ∈ pre, ∃ c, c ∈ cs ∧ Desc a c pr.1) ∧
                  (∀ c ∈ cs, ∀ i, Desc a c i →
                    ∃ k l,
                      lookupA (cs.foldl
                        (fun tl c =>
                          let isLast := some c = lastChildOf a node
                          let pfx := indentsConcat indents ++
                            (if isLast then END_BRANCH else MID_BRANCH)
                          drawFromA a n c
                            (indents ++ [if isLast then Indent.blank else Indent.bar])
                            (tl.add c pfx)) tl0).inds i = some k ∧
                      (cs.foldl
                        (fun tl c =>
                          let isLast := some c = lastChildOf a node
                          let pfx := indentsConcat indents ++
                            (if isLast then END_BRANCH else MID_BRANCH)
                          drawFromA a n c
                            (indents ++ [if isLast then Indent.blank else Indent.bar])
                            (tl.add c pfx)) tl0).lines.get? k = some l ∧
                      l.node = i ∧ l.pfx = pfxOf a i) := by
            intro cs
            induction cs with
            | nil =>
                intro _ _ tl0 hcl0
                exact ⟨[], [], rfl, by simp, by simp, rfl, by simp, by simp⟩
            | cons c rest ihcs =>
                intro hpw hmem tl0 hcl0
                have hcmem : c ∈ childrenOf a node := hmem c (List.mem_cons_self _ _)
                have hparc : parentOf a c = some node := hwf.childParent node c hcmem
                have hcgt : node < c := hwf.childGt node c hcmem
                have hclt : c < a.length := hwf.childLtLen node c hcmem
                have hpw' := (List.pairwise_cons.1 hpw).2
                have hclt' := (List.pairwise_cons.1 hpw).1
                set F := (fun (tl : TreeLines) c =>
                    let isLast := some c = lastChildOf a node
                    let pfx := indentsConcat indents ++
                      (if isLast then END_BRANCH else MID_BRANCH)
                    drawFromA a n c
                      (indents ++ [if isLast then Indent.blank else Indent.bar])
                      (tl.add c pfx)) with hF
                have hfold : (c :: rest).foldl F tl0 = rest.foldl F (F tl0 c) := rfl
                set pfxc := indentsConcat indents ++
                  (if some c = lastChildOf a node then END_BRANCH else MID_BRANCH) with hpfxc
                have hpfxOf : pfxc = pfxOf a c := by
                  rw [hpfxc]
                  unfold pfxOf
                  rw [hparc, hind]
                have hindc : indents ++ [if some c = lastChildOf a node
                    then Indent.blank else Indent.bar] = subIndents a c := by
                  rw [hind, subIndents_child hwf.parentsLt hparc]
                have htl1c : (tl0.add c pfxc).count = (tl0.add c pfxc).lines.length := by
                  rw [add_count, add_lines, List.length_append, hcl0]
                  rfl
                obtain ⟨pre2, post2, hi2, hl2, hc2, hf2, hk2, hs2⟩ :=
                  ihf n (by omega) c (indents ++ [if some c = lastChildOf a node
                    then Indent.blank else Indent.bar]) (tl0.add c pfxc)
                    hclt (by omega) hindc htl1c
                set tl2 := drawFromA a n c
                  (indents ++ [if some c = lastChildOf a node
                    then Indent.blank else Indent.bar]) (tl0.add c pfxc) with htl2
                have hFc : F tl0 c = tl2 := rfl
                have htl2c : tl2.count = tl2.lines.length := by
                  rw [hc2, hl2, add_count, add_lines]
                  simp only [List.length_append, List.length_singleton]
                  omega
                obtain ⟨pre3, post3, hi3, hl3, hc3, hf3, hk3, hs3⟩ :=
                  ihcs hpw' (fun c' hc' => hmem c' (List.mem_cons_of_mem c hc')) tl2 htl2c
                rw [hfold, hFc]
                refine ⟨pre3 ++ (pre2 ++ [(c, tl0.count)]),
                  ({ node := c, pfx := pfxc
                     prev := if tl0.count = 0 then none else some (tl0.count - 1)
                     next := tl0.count + 1 } :: post2) ++ post3, ?_, ?_, ?_, ?_, ?_, ?_⟩
                · rw [hi3, hi2, add_inds]
                  simp [List.append_assoc]
                · rw [hl3, hl2, add_lines]
                  simp [List.append_assoc]
                · rw [hc3, hc2, add_count]
                  simp
                  omega
                · rw [hf3, hf2, add_folded]
                · -- new keys are descendants of members of c :: rest
                  intro pr hpr
                  rcases List.mem_append.1 hpr with h3 | h23
                  · obtain ⟨c', hc', hd'⟩ := hk3 pr h3
                    exact ⟨c', List.mem_cons_of_mem c hc', hd'⟩
                  · rcases List.mem_append.1 h23 with h2 | hcc
                    · obtain ⟨hd, _⟩ := hk2 pr h2
                      exact ⟨c, List.mem_cons_self _ _, hd⟩
                    · have : pr = (c, tl0.count) := by simpa using hcc
                      subst this
                      exact ⟨c, List.mem_cons_self _ _, Desc.refl c⟩
                · -- every descendant of a member has a correct line
                  intro c0 hc0 i hdi
                  rcases List.mem_cons.1 hc0 with hce | hcr
                  · -- c0 = c: the entry was created while processing c
                    subst hce
                    have hkey : ∀ pr ∈ pre3, pr.1 ≠ i := by
                      intro pr hpr hpe
                      obtain ⟨c', hc', hd'⟩ := hk3 pr hpr
                      have hcc' : c0 < c' := hclt' c' hc'
                      exact desc_sibling_disjoint hwf hcmem
                        (hmem c' (List.mem_cons_of_mem c0 hc')) (by omega) hdi
                        (hpe ▸ hd')
                    by_cases hie : i = c0
                    · -- the line added by this very step
                      subst hie
                      refine ⟨tl0.count,
                        { node := i, pfx := pfxc
                          prev := if tl0.count = 0 then none else some (tl0.count - 1)
                          next := tl0.count + 1 }, ?_, ?_, rfl, hpfxOf⟩
                      · rw [hi3, lookupA_append_of_no_key _ _ _ hkey, hi2,
                          lookupA_append_of_no_key, add_inds, lookupA_cons, if_pos rfl]
                        intro pr hpr
                        obtain ⟨_, hne⟩ := hk2 pr hpr
                        exact hne
                      · rw [hl3, List.get?_append, hl2, List.get?_append, add_lines,
                          hcl0, List.get?_append_right (Nat.le_refl _)]
                        · simp
                        · rw [add_lines, List.length_append, hcl0]
                          simp
                        · rw [hl2, add_lines, hcl0]
                          simp [List.length_append]
                    · -- a proper descendant handled by the recursive call
                      obtain ⟨k, l, hk, hgl, hnd, hpfx⟩ := hs2 i hdi hie
                      refine ⟨k, l, ?_, ?_, hnd, hpfx⟩
                      · rw [hi3, lookupA_append_of_no_key _ _ _ hkey]
                        exact hk
                      · rw [hl3, List.get?_append]
                        · exact hgl
                        · exact get?_some_lt hgl
                  · -- c0 ∈ rest: handled by the tail fold
                    exact hs3 c0 hcr i hdi
          -- outer: instantiate the inner lemma with all children
          simp only [drawFromA]
          obtain ⟨pre, post, hi, hl, hc, hf, hk, hs⟩ :=
            hinner (childrenOf a node) (hwf.childSorted node) (fun c h => h) tl hcl
          refine ⟨pre, post, hi, hl, hc, hf, ?_, ?_⟩
          · intro pr hpr
            obtain ⟨c, hcm, hd⟩ := hk pr hpr
            have hgt := hwf.childGt node c hcm
            have hle := desc_le hwf.parentsLt hd
            exact ⟨desc_of_child hwf hcm hd, by omega⟩
          · intro i hdi hne
            obtain ⟨c, hcm, hcd⟩ := desc_child hwf hdi hne
            exact hs c hcm i hcd

/-- What `draw` guarantees on a well-formed arena: a consistent count,
every node present in `inds` with an in-range line, and every non-root
node's line carrying the `pfxOf` prefix. -/
theorem draw_spec (a : Arena) (hwf : WfAr a) :
    (draw a 0).count = (draw a 0).lines.length ∧
    (∀ i, i < a.length →
      ∃ k, lookupA (draw a 0).inds i = some k ∧ k < (draw a 0).count) ∧
    (∀ i, i < a.length → i ≠ 0 →
      ∃ k l, lookupA (draw a 0).inds i = some k ∧
        (draw a 0).lines.get? k = some l ∧ l.node = i ∧ l.pfx = pfxOf a i) := by
  have h0 : 0 < a.length := by
    cases a with
    | nil => exact absurd rfl hwf.ne
    | cons x xs => simp
  have hind0 : ([] : List Indent) = subIndents a 0 := rfl
  have hbase : (TreeLines.new.add 0 ("")).count =
      (TreeLines.new.add 0 ("")).lines.length := rfl
  obtain ⟨pre, post, hi, hl, hc, hf, hk, hs⟩ :=
    drawFromA_spec a hwf a.length 0 [] (TreeLines.new.add 0 ("")) h0
      (by omega) hind0 hbase
  have hdraw : draw a 0 = drawFromA a a.length 0 [] (TreeLines.new.add 0 ("")) := rfl
  have hcl : (draw a 0).count = (draw a 0).lines.length := by
    rw [hdraw, hc, hl]
    simp [List.length_append]
    rfl
  refine ⟨hcl, ?_, ?_⟩
  · intro i hil
    by_cases hie : i = 0
    · subst hie
      refine ⟨0, ?_, ?_⟩
      · rw [hdraw, hi, lookupA_append_of_no_key]
        · rfl
        · intro pr hpr
          obtain ⟨_, hne⟩ := hk pr hpr
          intro hpe
          have := desc_le hwf.parentsLt (hk pr hpr).1
          omega
      · rw [hdraw, hc]
        simp [TreeLines.add, TreeLines.new]
    · obtain ⟨k, l, hlk, hgl, _, _⟩ := hs i (desc_root hwf i hil) hie
      refine ⟨k, by rw [hdraw]; exact hlk, ?_⟩
      rw [hcl, hdraw]
      exact get?_some_lt hgl
  · intro i hil hne
    obtain ⟨k, l, hlk, hgl, hnd, hpfx⟩ := hs i (desc_root hwf i hil) hne
    exact ⟨k, l, by rw [hdraw]; exact hlk, by rw [hdraw]; exact hgl, hnd, hpfx⟩

/-- A child of any node is a valid non-root id. -/
theorem child_valid {a : Arena} (hwf : WfAr a) {p c : Nat}
    (hc : c ∈ childrenOf a p) : c < a.length ∧ c ≠ 0 := by
  refine ⟨hwf.childLtLen p c hc, ?_⟩
  intro he
  have := hwf.childParent p c hc
  rw [he, hwf.rootParentNone] at this
  exact Option.noConfusion this

theorem listNextAfter_mem {l : List Nat} {i j : Nat}
    (h : listNextAfter l i = some j) : j ∈ l := by
  induction l with
  | nil => exact Option.noConfusion h
  | cons x rest ih =>
      rw [listNextAfter] at h
      by_cases hx : x = i
      · rw [if_pos hx] at h
        cases rest with
        | nil => exact Option.noConfusion h
        | cons y t =>
            simp only [List.head?] at h
            injection h with h1
            subst h1
            exact List.mem_cons_of_mem _ (List.mem_cons_self _ _)
      · rw [if_neg hx] at h
        exact List.mem_cons_of_mem _ (ih h)

theorem listPrevBefore_mem {l : List Nat} {i j : Nat}
    (h : listPrevBefore l i = some j) : j ∈ l := by
  induction l with
  | nil => exact Option.noConfusion h
  | cons x rest ih =>
      rw [listPrevBefore] at h
      by_cases hx : rest.head? = some i
      · rw [if_pos hx] at h
        injection h with h1
        subst h1
        exact List.mem_cons_self _ _
      · rw [if_neg hx] at h
        exact List.mem_cons_of_mem _ (ih h)

theorem nextSiblingOf_valid {a : Arena} (hwf : WfAr a) {i j : Nat}
    (h : nextSiblingOf a i = some j) : j < a.length ∧ j ≠ 0 := by
  unfold nextSiblingOf at h
  cases hp : parentOf a i with
  | none => rw [hp] at h; exact Option.noConfusion h
  | some p =>
      rw [hp] at h
      simp only [Option.some_bind] at h
      exact child_valid hwf (listNextAfter_mem h)

theorem prevSiblingOf_valid {a : Arena} (hwf : WfAr a) {i j : Nat}
    (h : prevSiblingOf a i = some j) : j < a.length ∧ j ≠ 0 := by
  unfold prevSiblingOf at h
  cases hp : parentOf a i with
  | none => rw [hp] at h; exact Option.noConfusion h
  | some p =>
      rw [hp] at h
      simp only [Option.some_bind] at h
      exact child_valid hwf (listPrevBefore_mem h)

theorem subtreeSuccessor_ne_none {a : Arena}
    (hp : ∀ i p, parentOf a i = some p → p < i) :
    ∀ fuel q, q < fuel → subtreeSuccessor a fuel (some q) ≠ none := by
  intro fuel
  induction fuel with
  | zero => intro q hq; omega
  | succ n ih =>
      intro q hq
      rw [subtreeSuccessor]
      cases hns : nextSiblingOf a q with
      | some j => simp
      | none =>
          simp only
          cases hpar : parentOf a q with
          | none => simp [subtreeSuccessor]
          | some p =>
              have := hp q p hpar
              exact ih p (by omega)

theorem subtreeSuccessor_some_valid {a : Arena} (hwf : WfAr a) :
    ∀ fuel op nn, subtreeSuccessor a fuel op = some (some nn) →
      nn < a.length ∧ nn ≠ 0 := by
  intro fuel
  induction fuel with
  | zero =>
      intro op nn h
      cases op with
      | none => rw [subtreeSuccessor] at h; injection h with h1; exact Option.noConfusion h1
      | some q => rw [subtreeSuccessor] at h; exact Option.noConfusion h
  | succ n ih =>
      intro op nn h
      cases op with
      | none => rw [subtreeSuccessor] at h; injection h with h1; exact Option.noConfusion h1
      | some q =>
          rw [subtreeSuccessor] at h
          cases hns : nextSiblingOf a q with
          | some j =>
              rw [hns] at h
              injection h with h1
              injection h1 with h2
              subst h2
              exact nextSiblingOf_valid hwf hns
          | none =>
              rw [hns] at h
              exact ih _ nn h

theorem deepestLastDesc_lt {a : Arena} (hwf : WfAr a) :
    ∀ fuel q, q < a.length → deepestLastDesc a fuel q < a.length := by
  intro fuel
  induction fuel with
  | zero => intro q hq; exact hq
  | succ n ih =>
      intro q hq
      rw [deepestLastDesc]
      cases hlc : lastChildOf a q with
      | none => exact hq
      | some c =>
          have hcm : c ∈ childrenOf a q := by
            unfold lastChildOf at hlc
            exact List.mem_of_getLast?_eq_some hlc
          exact ih c (hwf.childLtLen q c hcm)

/-- Construction establishes the invariant. -/
theorem new_with_options_inv (rootDir : String) (stream : List WItem) (o : Bool)
    (st : TState) (hws : WfStream stream)
    (h : new_with_options rootDir stream o = some st) : Inv st := by
  unfold new_with_options at h
  cases hb : fs_to_tree rootDir stream o with
  | exitCode c => rw [hb] at h; exact Option.noConfusion h
  | panicked => rw [hb] at h; exact Option.noConfusion h
  | ok a root nf nd =>
      rw [hb] at h
      injection h with h1
      obtain ⟨hwf, hr0, hft⟩ := fs_to_tree_ok_inv rootDir stream o a root nf nd hws hb
      subst hr0
      subst h1
      obtain ⟨hcl, hindsOk, _⟩ := draw_spec a hwf
      have h0 : 0 < a.length := by
        cases a with
        | nil => exact absurd rfl hwf.ne
        | cons x xs => simp
      constructor
      · exact hwf
      · rfl
      · -- focLt
        simp only
        cases hfc : firstChildOf a 0 with
        | none => simpa using h0
        | some c =>
            have hcm : c ∈ childrenOf a 0 := by
              unfold firstChildOf at hfc
              exact List.mem_of_mem_head? hfc
            simpa using (child_valid hwf hcm).1
      · exact hft
      · exact hcl
      · exact hindsOk
      · intro p v hv
        exact absurd hv (by simp [lookupA])
      · -- focNz
        intro hch
        simp only
        cases hfc : firstChildOf a 0 with
        | none =>
            exfalso
            unfold firstChildOf at hfc
            exact hch (List.head?_eq_none_iff.1 hfc)
        | some c =>
            have hcm : c ∈ childrenOf a 0 := by
              unfold firstChildOf at hfc
              exact List.mem_of_mem_head? hfc
            simpa using (child_valid hwf hcm).2
      · intro p v hv
        exact absurd hv (by simp [lookupA])

theorem inv_get_focused {st : TState} (h : Inv st) :
    ∃ nd, st.arena.get? st.focused = some nd :=
  ⟨_, List.get?_eq_get h.focLt⟩

/-- Replacing the line array (same length) and the folded set preserves the
invariant: none of its fields constrain `prev`/`next` values or `folded`. -/
theorem inv_lines_update (st : TState) (h : Inv st) (newLines : List TreeLine)
    (newFolded : List Nat) (hlen : newLines.length = st.lines.lines.length) :
    Inv { st with lines := { st.lines with lines := newLines, folded := newFolded } } := by
  constructor
  · exact h.wf
  · exact h.rootZero
  · exact h.focLt
  · exact h.ftypeSome
  · simp only
    rw [hlen]
    exact h.countEq
  · exact h.indsOk
  · exact h.fcLt
  · exact h.focNz
  · exact h.fcNz

theorem focus_up_inv (st : TState) (h : Inv st) :
    ∃ st', focus_up st = some st' ∧ Inv st' := by
  obtain ⟨nd, hnd⟩ := inv_get_focused h
  rw [focus_up, hnd]
  simp only [Option.bind_eq_bind, Option.pure_def, Option.some_bind]
  cases hpar : nd.parent with
  | none => exact ⟨st, rfl, h⟩
  | some p =>
      simp only [Option.bind_eq_bind, Option.pure_def, Option.some_bind]
      have hparOf : parentOf st.arena st.focused = some p := by
        unfold parentOf
        rw [hnd]
        simp [hpar]
      by_cases hpr : p = st.root
      · rw [if_pos hpr]
        exact ⟨st, rfl, h⟩
      · rw [if_neg hpr]
        refine ⟨_, rfl, ?_⟩
        have hfNz : st.focused ≠ 0 := by
          intro he
          rw [he, h.wf.rootParentNone] at hparOf
          exact Option.noConfusion hparOf
        constructor
        · exact h.wf
        · exact h.rootZero
        · have := h.wf.parentsLt _ _ hparOf
          have hfl := h.focLt
          simp only
          omega
        · exact h.ftypeSome
        · exact h.countEq
        · exact h.indsOk
        · intro q v hv
          simp only at hv
          rw [lookupA_cons] at hv
          by_cases hq : p = q
          · rw [if_pos hq] at hv
            injection hv with h1
            subst h1
            exact h.focLt
          · rw [if_neg hq] at hv
            exact h.fcLt q v hv
        · intro _
          simp only
          rw [h.rootZero] at hpr
          exact hpr
        · intro q v hv
          simp only at hv
          rw [lookupA_cons] at hv
          by_cases hq : p = q
          · rw [if_pos hq] at hv
            injection hv with h1
            subst h1
            exact hfNz
          · rw [if_neg hq] at hv
            exact h.fcNz q v hv

theorem focus_down_inv (st : TState) (h : Inv st) :
    ∃ st', focus_down st = some st' ∧ Inv st' := by
  rw [focus_down]
  cases hfc : lookupA st.focusedChild st.focused with
  | some c =>
      simp only [Option.bind_eq_bind, Option.pure_def, Option.some_bind]
      refine ⟨_, rfl, ?_⟩
      constructor
      · exact h.wf
      · exact h.rootZero
      · exact h.fcLt _ _ hfc
      · exact h.ftypeSome
      · exact h.countEq
      · exact h.indsOk
      · exact h.fcLt
      · intro _
        exact h.fcNz _ _ hfc
      · exact h.fcNz
  | none =>
      obtain ⟨nd, hnd⟩ := inv_get_focused h
      rw [hnd]
      simp only [Option.bind_eq_bind, Option.pure_def, Option.some_bind]
      cases hch : nd.children.head? with
      | none => exact ⟨st, rfl, h⟩
      | some ps =>
          obtain ⟨find, hfind, _⟩ := h.indsOk st.focused h.focLt
          rw [hfind]
          simp only [Option.bind_eq_bind, Option.pure_def, Option.some_bind]
          have hpsm : ps ∈ childrenOf st.arena st.focused := by
            unfold childrenOf
            rw [hnd]
            exact List.mem_of_mem_head? hch
          have hpsv := child_valid h.wf hpsm
          by_cases hcont : st.lines.folded.contains find = true
          · rw [if_pos hcont]
            exact ⟨st, rfl, h⟩
          · rw [if_neg hcont]
            refine ⟨_, rfl, ?_⟩
            constructor
            · exact h.wf
            · exact h.rootZero
            · exact hpsv.1
            · exact h.ftypeSome
            · exact h.countEq
            · exact h.indsOk
            · exact h.fcLt
            · intro _
              exact hpsv.2
            · exact h.fcNz

theorem focus_left_inv (st : TState) (h : Inv st) :
    ∃ st', focus_left st = some st' ∧ Inv st' := by
  obtain ⟨nd, hnd⟩ := inv_get_focused h
  rw [focus_left, hnd]
  simp only [Option.bind_eq_bind, Option.pure_def, Option.some_bind]
  cases hps : prevSiblingOf st.arena st.focused with
  | none => exact ⟨st, rfl, h⟩
  | some ps =>
      refine ⟨_, rfl, ?_⟩
      have hv := prevSiblingOf_valid h.wf hps
      constructor
      · exact h.wf
      · exact h.rootZero
      · exact hv.1
      · exact h.ftypeSome
      · exact h.countEq
      · exact h.indsOk
      · exact h.fcLt
      · intro _
        exact hv.2
      · exact h.fcNz

theorem focus_right_inv (st : TState) (h : Inv st) :
    ∃ st', focus_right st = some st' ∧ Inv st' := by
  obtain ⟨nd, hnd⟩ := inv_get_focused h
  rw [focus_right, hnd]
  simp only [Option.bind_eq_bind, Option.pure_def, Option.some_bind]
  cases hps : nextSiblingOf st.arena st.focused with
  | none => exact ⟨st, rfl, h⟩
  | some ps =>
      refine ⟨_, rfl, ?_⟩
      have hv := nextSiblingOf_valid h.wf hps
      constructor
      · exact h.wf
      · exact h.rootZero
      · exact hv.1
      · exact h.ftypeSome
      · exact h.countEq
      · exact h.indsOk
      · exact h.fcLt
      · intro _
        exact hv.2
      · exact h.fcNz

theorem fold_focus_inv (st : TState) (h : Inv st) :
    ∃ st', fold_focus st = some st' ∧ Inv st' := by
  obtain ⟨nd, hnd⟩ := inv_get_focused h
  rw [fold_focus, hnd]
  simp only [Option.bind_eq_bind, Option.pure_def, Option.some_bind]
  cases hty : nd.entry.de.ftype with
  | none => exact absurd hty (h.ftypeSome _ _ hnd)
  | some t =>
      simp only [Option.bind_eq_bind, Option.pure_def, Option.some_bind]
      by_cases ht : t ≠ FKind.dir
      · rw [if_pos ht]
        exact ⟨st, rfl, h⟩
      · rw [if_neg ht]
        obtain ⟨f, hf, hfc⟩ := h.indsOk st.focused h.focLt
        cases hsucc : subtreeSuccessor st.arena st.arena.length (some st.focused) with
        | none =>
            exact absurd hsucc
              (subtreeSuccessor_ne_none h.wf.parentsLt st.arena.length st.focused h.focLt)
        | some so =>
            simp only [Option.bind_eq_bind, Option.pure_def, Option.some_bind]
            cases so with
            | none =>
                simp only [Option.bind_eq_bind, Option.pure_def, Option.some_bind]
                rw [if_neg (lt_irrefl st.lines.count)]
                rw [hf]
                simp only [Option.some_bind]
                have hfl2 : f < st.lines.lines.length := h.countEq ▸ hfc
                rw [List.get?_eq_get hfl2]
                simp only [Option.some_bind]
                refine ⟨_, rfl, ?_⟩
                apply inv_lines_update st h
                rw [length_modifyIdx]
            | some nn =>
                obtain ⟨m, hm, _⟩ := h.indsOk nn
                  (subtreeSuccessor_some_valid h.wf _ _ nn hsucc).1
                simp only [Option.bind_eq_bind, Option.pure_def, Option.some_bind]
                rw [hm]
                simp only [Option.some_bind]
                by_cases hlt : m < st.lines.count
                · rw [if_pos hlt]
                  rw [hf]
                  simp only [Option.some_bind]
                  have hnl : m < st.lines.lines.length := h.countEq ▸ hlt
                  rw [List.get?_eq_get hnl]
                  simp only [Option.some_bind]
                  have hfl : f < (modifyIdx st.lines.lines m
                      (fun l => { l with prev := some f })).length := by
                    rw [length_modifyIdx]
                    exact h.countEq ▸ hfc
                  rw [List.get?_eq_get hfl]
                  simp only [Option.some_bind]
                  refine ⟨_, rfl, ?_⟩
                  apply inv_lines_update st h
                  rw [length_modifyIdx, length_modifyIdx]
                · rw [if_neg hlt]
                  rw [hf]
                  simp only [Option.some_bind]
                  have hfl2 : f < st.lines.lines.length := h.countEq ▸ hfc
                  rw [List.get?_eq_get hfl2]
                  simp only [Option.some_bind]
                  refine ⟨_, rfl, ?_⟩
                  apply inv_lines_update st h
                  rw [length_modifyIdx]

theorem unfold_focus_inv (st : TState) (h : Inv st) :
    ∃ st', unfold_focus st = some st' ∧ Inv st' := by
  obtain ⟨f, hf, hfc⟩ := h.indsOk st.focused h.focLt
  rw [unfold_focus, hf]
  simp only [Option.bind_eq_bind, Option.pure_def, Option.some_bind]
  have hfl2 : f < st.lines.lines.length := h.countEq ▸ hfc
  have hfg : st.lines.lines.get? f =
      some (st.lines.lines.get ⟨f, hfl2⟩) := List.get?_eq_get hfl2
  rw [hfg]
  simp only [Option.some_bind]
  by_cases hlt : (st.lines.lines.get ⟨f, hfl2⟩).next < st.lines.count
  · rw [if_pos hlt]
    have hdld := deepestLastDesc_lt h.wf st.arena.length st.focused h.focLt
    obtain ⟨dInd, hdi, _⟩ := h.indsOk _ hdld
    rw [hdi]
    simp only [Option.some_bind]
    have hnl : (st.lines.lines.get ⟨f, hfl2⟩).next < st.lines.lines.length := by
      have := h.countEq
      omega
    have hng : st.lines.lines.get? (st.lines.lines.get ⟨f, hfl2⟩).next =
        some (st.lines.lines.get ⟨_, hnl⟩) := List.get?_eq_get hnl
    rw [hng]
    simp only [Option.some_bind]
    have hfl3 : f < (modifyIdx st.lines.lines (st.lines.lines.get ⟨f, hfl2⟩).next
        (fun l => { l with prev := some dInd })).length := by
      rw [length_modifyIdx]
      exact hfl2
    obtain ⟨y, hy⟩ : ∃ y, (modifyIdx st.lines.lines
        (st.lines.lines.get ⟨f, hfl2⟩).next
        (fun l => { l with prev := some dInd })).get? f = some y :=
      ⟨_, List.get?_eq_get hfl3⟩
    rw [hy]
    simp only [Option.some_bind]
    refine ⟨_, rfl, ?_⟩
    apply inv_lines_update st h
    rw [length_modifyIdx, length_modifyIdx]
  · rw [if_neg hlt]
    refine ⟨_, rfl, ?_⟩
    apply inv_lines_update st h
    rw [length_modifyIdx]

theorem toggle_focus_fold_inv (st : TState) (h : Inv st) :
    ∃ st', toggle_focus_fold st = some st' ∧ Inv st' := by
  obtain ⟨nd, hnd⟩ := inv_get_focused h
  rw [toggle_focus_fold, hnd]
  simp only [Option.bind_eq_bind, Option.pure_def, Option.some_bind]
  by_cases hft : nd.entry.ft = FileType.dir
  · rw [if_pos hft]
    obtain ⟨f, hf, hfc⟩ := h.indsOk st.focused h.focLt
    rw [hf]
    simp only [Option.some_bind]
    by_cases hcont : st.lines.folded.contains f = true
    · rw [if_pos hcont]
      exact unfold_focus_inv st h
    · rw [if_neg hcont]
      exact fold_focus_inv st h
  · rw [if_neg hft]
    exact ⟨st, rfl, h⟩

/-- Every reachable state satisfies the invariant. -/
theorem reachable_inv {st : TState} (h : Reachable st) : Inv st := by
  induction h with
  | init rootDir stream o st hws hnew => exact new_with_options_inv rootDir stream o st hws hnew
  | up hr hop ih =>
      obtain ⟨st'', hop', hinv⟩ := focus_up_inv _ ih
      rw [hop] at hop'
      injection hop' with h1
      exact h1 ▸ hinv
  | down hr hop ih =>
      obtain ⟨st'', hop', hinv⟩ := focus_down_inv _ ih
      rw [hop] at hop'
      injection hop' with h1
      exact h1 ▸ hinv
  | left hr hop ih =>
      obtain ⟨st'', hop', hinv⟩ := focus_left_inv _ ih
      rw [hop] at hop'
      injection hop' with h1
      exact h1 ▸ hinv
  | right hr hop ih =>
      obtain ⟨st'', hop', hinv⟩ := focus_right_inv _ ih
      rw [hop] at hop'
      injection hop' with h1
      exact h1 ▸ hinv
  | toggle hr hop ih =>
      obtain ⟨st'', hop', hinv⟩ := toggle_focus_fold_inv _ ih
      rw [hop] at hop'
      injection hop' with h1
      exact h1 ▸ hinv

/-- C2: for every reachable tree state, each of the five navigation and
fold operations is total — it never panics (the model never returns `none`)
and has no error channel to fail with; at most it returns the state
unchanged. -/
theorem navigation_totality (st : TState) (h : Reachable st) :
    (focus_up st).isSome ∧ (focus_down st).isSome ∧ (focus_left st).isSome ∧
    (focus_right st).isSome ∧ (toggle_focus_fold st).isSome := by
  have hi := reachable_inv h
  obtain ⟨s1, h1, _⟩ := focus_up_inv st hi
  obtain ⟨s2, h2, _⟩ := focus_down_inv st hi
  obtain ⟨s3, h3, _⟩ := focus_left_inv st hi
  obtain ⟨s4, h4, _⟩ := focus_right_inv st hi
  obtain ⟨s5, h5, _⟩ := toggle_focus_fold_inv st hi
  refine ⟨?_, ?_, ?_, ?_, ?_⟩
  · rw [h1]; rfl
  · rw [h2]; rfl
  · rw [h3]; rfl
  · rw [h4]; rfl
  · rw [h5]; rfl

/-- C2 witness: totality at the concrete two-file state. -/
theorem C2_witness :
    (focus_up simpleState).isSome ∧ (focus_down simpleState).isSome ∧
    (focus_left simpleState).isSome ∧ (focus_right simpleState).isSome ∧
    (toggle_focus_fold simpleState).isSome :=
  navigation_totality simpleState
    (Reachable.init ("simple") simpleStream false simpleState (by decide) (by decide))

/-- C6 (amended): in every reachable state whose root has at least one
child, the focus is never the root.  (A walk that yields only the root —
an empty directory — focuses the root itself at construction; see the
counterexample.) -/
theorem focus_never_root (st : TState) (h : Reachable st)
    (hc : childrenOf st.arena st.root ≠ []) : st.focused ≠ st.root := by
  have hi := reachable_inv h
  rw [hi.rootZero] at hc ⊢
  exact hi.focNz hc

/-- C6 counterexample: walking an empty directory yields a constructed
(hence reachable) state whose focus is exactly the root. -/
theorem C6_counterexample :
    WfStream loneStream ∧
    new_with_options ("lone") loneStream false = some loneState ∧
    loneState.focused = loneState.root := by decide

/-- C6 witness: the amended claim at the concrete two-file state. -/
theorem C6_witness : simpleState.focused ≠ simpleState.root :=
  focus_never_root simpleState
    (Reachable.init ("simple") simpleStream false simpleState (by decide) (by decide))
    (by decide)

/-- C5 (amended): Down moves to the remembered last-descended child
whenever one exists — even when the focused line is folded; only in the
absence of such a memory does a folded focused line make Down a no-op;
without a memory and with an unfolded line it goes to the first child, and
with no child at all it is a no-op. -/
theorem focus_down_behaviour (st : TState) (h : Reachable st) :
    (∀ c, lookupA st.focusedChild st.focused = some c →
      focus_down st = some { st with focused := c }) ∧
    (lookupA st.focusedChild st.focused = none →
      ∀ find, lookupA st.lines.inds st.focused = some find →
        st.lines.folded.contains find = true → focus_down st = some st) ∧
    (∀ nd ps find, st.arena.get? st.focused = some nd →
      nd.children.head? = some ps →
      lookupA st.lines.inds st.focused = some find →
      st.lines.folded.contains find = false →
      lookupA st.focusedChild st.focused = none →
      focus_down st = some { st with focused := ps }) ∧
    (∀ nd, st.arena.get? st.focused = some nd → nd.children = [] →
      lookupA st.focusedChild st.focused = none → focus_down st = some st) := by
  have hi := reachable_inv h
  refine ⟨?_, ?_, ?_, ?_⟩
  · intro c hc
    rw [focus_down, hc]
    rfl
  · intro hnone find hfind hfold
    obtain ⟨nd, hnd⟩ := inv_get_focused hi
    rw [focus_down, hnone, hnd]
    simp only [Option.bind_eq_bind, Option.pure_def, Option.some_bind]
    cases hch : nd.children.head? with
    | none => rfl
    | some ps =>
        rw [hfind]
        simp only [Option.some_bind]
        rw [if_pos hfold]
  · intro nd ps find hnd hch hfind hfold hnone
    rw [focus_down, hnone, hnd]
    simp only [Option.bind_eq_bind, Option.pure_def, Option.some_bind]
    rw [hch, hfind]
    simp only [Option.some_bind, hfold, Bool.false_eq_true, if_false]
  · intro nd hnd hch hnone
    rw [focus_down, hnone, hnd]
    simp only [Option.bind_eq_bind, Option.pure_def, Option.some_bind]
    rw [hch]
    rfl

/-- A full interactive session reaching `oneDirFoldedState`:
construction, Down, Up (remembering the child), ToggleFold. -/
theorem reachable_oneDirFoldedState : Reachable oneDirFoldedState :=
  Reachable.toggle
    (Reachable.up
      (Reachable.down
        (Reachable.init ("root") oneDirStream false oneDirState (by decide) (by decide))
        (show focus_down oneDirState = some oneDirDown by decide))
      (show focus_up oneDirDown = some oneDirUp by decide))
    (show toggle_focus_fold oneDirUp = some oneDirFoldedState by decide)

/-- C5 counterexample: in the reachable state `oneDirFoldedState` the
focused line (index 1) is folded, yet Down moves the focus to the
remembered child (node 2) instead of being a no-op. -/
theorem C5_counterexample :
    ((lookupA oneDirFoldedState.lines.inds oneDirFoldedState.focused).map
      (fun find => oneDirFoldedState.lines.folded.contains find)) = some true ∧
    (focus_down oneDirFoldedState).map (fun st => st.focused) = some 2 ∧
    oneDirFoldedState.focused = 1 := by decide

/-- C5 witness: the amended claim's remembered-child clause at the folded
state — Down goes to node 2 although the line is folded. -/
theorem C5_witness :
    focus_down oneDirFoldedState = some { oneDirFoldedState with focused := 2 } :=
  (focus_down_behaviour oneDirFoldedState reachable_oneDirFoldedState).1 2 (by decide)

/-- C10: a root with exactly the two files `myfile` and `myotherfile`
(sorted) builds and draws exactly two non-root lines, `├── myfile`
followed by `└── myotherfile`, with summary `0 directories, 2 files`. -/
theorem two_files_scenario :
    new_with_options ("simple") simpleStream false = some simpleState ∧
    simpleState.root = 0 ∧
    simpleState.lines.count = 3 ∧
    (simpleState.lines.lines.map (fun l => l.node)) = [0, 1, 2] ∧
    renderLineString simpleState 1 = "├── myfile" ∧
    renderLineString simpleState 2 = "└── myotherfile" ∧
    nextOfLine simpleState 1 = 2 ∧
    summary simpleState = "0 directories, 2 files" := by decide

/-- C4 counterexample: on an empty walker stream the builder panics
(`.expect` on the missing first item); a panic is not an error report with
a process exit, so no exit code — in particular no non-zero one — is
produced. -/
theorem C4_counterexample :
    fs_to_tree ("d") [] false = BuildResult.panicked ∧
    ∀ c : Nat, BuildResult.panicked ≠ BuildResult.exitCode c :=
  ⟨rfl, fun _ h => BuildResult.noConfusion h⟩

/-- C4 (amended): an empty stream makes construction panic rather than
report-and-exit; it is a *first-item walker error* that produces the
report-and-exit behaviour, with code 1 when the error carries a path and
code 2 otherwise. -/
theorem empty_stream_panics (dir : String) (o : Bool) :
    fs_to_tree dir [] o = BuildResult.panicked ∧
    (∀ c : Nat, fs_to_tree dir [] o ≠ BuildResult.exitCode c) ∧
    (∀ p inner rest, fs_to_tree dir (Except.error (WalkError.withPath p inner) :: rest) o
      = BuildResult.exitCode 1) ∧
    (∀ rest, fs_to_tree dir (Except.error WalkError.plain :: rest) o
      = BuildResult.exitCode 2) :=
  ⟨rfl, fun _ h => BuildResult.noConfusion h, fun _ _ _ => rfl, fun _ => rfl⟩

/-- C9 counterexample: the root line has an empty prefix, so its cost is
`1 + name_length / width`, not `1 + (prefix_length + 1 + name_length) / width`:
at width 4 with the three-byte root name `abc` the program computes 1 visual
line while the claimed formula gives 2. -/
theorem C9_counterexample :
    ∃ l, abcState.lines.lines.get? 0 = some l ∧
      visual_lines_for_line abcState 0 4 = 1 ∧
      1 + (l.pfx.utf8ByteSize + 1 + (nameOfLine abcState l).utf8ByteSize) / 4 = 2 :=
  ⟨_, rfl, by decide, by decide⟩

/-- C9 (amended): the claimed formula holds exactly for the lines with a
nonempty prefix; for an empty prefix — the root line — no separating space
is counted and the cost is `1 + name_length / width`. -/
theorem visual_lines_formula (st : TState) (i width : Nat) (l : TreeLine)
    (hl : st.lines.lines.get? i = some l) :
    (l.pfx.utf8ByteSize ≠ 0 → visual_lines_for_line st i width =
      1 + (l.pfx.utf8ByteSize + 1 + (nameOfLine st l).utf8ByteSize) / width) ∧
    (l.pfx.utf8ByteSize = 0 → visual_lines_for_line st i width =
      1 + (nameOfLine st l).utf8ByteSize / width) := by
  simp only [visual_lines_for_line, hl, Option.getD_some]
  constructor
  · intro h
    rw [if_pos h]
    omega
  · intro h
    rw [if_neg (fun hc => hc h), h, Nat.zero_add]
    omega

/-- C9 witness: the wrap formula at the `myfile` line of the two-file
state. -/
theorem C9_witness :
    visual_lines_for_line simpleState 1 4 =
      1 + ((({ node := 1, pfx := MID_BRANCH, prev := some 0, next := 2 } : TreeLine)).pfx.utf8ByteSize
        + 1 + (nameOfLine simpleState
            { node := 1, pfx := MID_BRANCH, prev := some 0, next := 2 }).utf8ByteSize) / 4 :=
  (visual_lines_formula simpleState 1 4
      { node := 1, pfx := MID_BRANCH, prev := some 0, next := 2 } (by decide)).1 (by decide)

/-- C8 counterexample: in the one-directory tree, `C`'s line prefix
`    └──` is not its parent `D`'s prefix `└──` with a piece appended — the
parent's branch glyph is replaced by an indent, so the parent's prefix is
not even a prefix of the child's. -/
theorem C8_counterexample :
    ∃ lp lc, oneDirState.lines.lines.get? 1 = some lp ∧
      oneDirState.lines.lines.get? 2 = some lc ∧
      parentOf oneDirState.arena lc.node = some lp.node ∧
      lc.pfx ≠ lp.pfx ++ END_BRANCH ∧
      lc.pfx ≠ lp.pfx ++ MID_BRANCH ∧
      lp.pfx.data.isPrefixOf lc.pfx.data = false :=
  ⟨_, _, rfl, rfl, by decide, by decide, by decide, by decide⟩

/-- C8 (amended): a non-root node's drawn prefix is the rendering of its
parent's *indent stack* (branch glyphs of the ancestors replaced by blank
or bar indents) followed by one branch piece — `EndBranch` when the node is
its parent's last child, else `MidBranch`; the number of pieces, the stack
length plus one, equals the node's depth.  The parent's own prefix is not a
string prefix of the child's in general (see the counterexample). -/
theorem prefix_depth_structure (a : Arena) (hwf : WfAr a) (i p : Nat)
    (hpar : parentOf a i = some p) :
    ∃ k l, lookupA (draw a 0).inds i = some k ∧
      (draw a 0).lines.get? k = some l ∧
      l.pfx = indentsConcat (subIndents a p) ++
        (if some i = lastChildOf a p then END_BRANCH else MID_BRANCH) ∧
      (subIndents a p).length + 1 = depthOf a i := by
  have hlt : i < a.length := parentOf_some_lt hpar
  have hpi : p < i := hwf.parentsLt i p hpar
  have hnz : i ≠ 0 := by omega
  obtain ⟨k, l, hk, hl, hnode, hpfx⟩ := (draw_spec a hwf).2.2 i hlt hnz
  refine ⟨k, l, hk, hl, ?_, ?_⟩
  · rw [hpfx]
    simp only [pfxOf, hpar]
  · rw [subIndents_length_eq_depth hwf.parentsLt p,
      depthOf_child hwf.parentsLt hpar]

/-- C8 witness: the structure at node 2 (child of the directory node 1) of
the one-directory tree. -/
theorem C8_witness :
    ∃ k l, lookupA (draw oneDirState.arena 0).inds 2 = some k ∧
      (draw oneDirState.arena 0).lines.get? k = some l ∧
      l.pfx = indentsConcat (subIndents oneDirState.arena 1) ++
        (if some 2 = lastChildOf oneDirState.arena 1 then END_BRANCH else MID_BRANCH) ∧
      (subIndents oneDirState.arena 1).length + 1 = depthOf oneDirState.arena 2 :=
  prefix_depth_structure oneDirState.arena
    (reachable_inv (Reachable.init ("root") oneDirStream false oneDirState
      (by decide) (by decide))).wf
    2 1 (by decide)

/-- C7: a permission-denied walker error observed during the lookahead,
carrying the path of the entry just inserted, downgrades that entry's kind
to `RestrictedDirectory` and the scan continues past the error; concretely,
the `restrictedStream` build succeeds, node `D` ends up a
`RestrictedDirectory` with no children, and its line renders with the
suffix `" [error opening dir]"`. -/
theorem restricted_dir_downgrade (ws : List WItem) (fse : FsEntry) (o : Bool) (p : String)
    (hp : p = fse.de.path) :
    determine_place_in_tree
        (Except.error (WalkError.withPath p (WalkInner.io IOKind.permissionDenied)) :: ws)
        fse o
      = determine_place_in_tree ws { fse with ft := FileType.restrictedDir } o ∧
    new_with_options ("root") restrictedStream false = some restrictedState ∧
    ((restrictedState.arena.get? 1).map (fun n => n.entry.ft)) = some FileType.restrictedDir ∧
    childrenOf restrictedState.arena 1 = [] ∧
    renderSuffix restrictedState 1 = RESTRICTED_MARK := by
  refine ⟨?_, by decide, by decide, by decide, by decide⟩
  simp only [determine_place_in_tree]
  rw [if_pos hp]

/-- C7 witness: the downgrade equation at the concrete stream position of
`restrictedStream`. -/
theorem C7_witness :
    determine_place_in_tree
        (Except.error (WalkError.withPath ("D") (WalkInner.io IOKind.permissionDenied))
          :: [Except.ok (mkFileDe ("X") 1)])
        (de_to_fsentry (mkDirDe ("D") 1)) false
      = determine_place_in_tree [Except.ok (mkFileDe ("X") 1)]
          { de_to_fsentry (mkDirDe ("D") 1) with ft := FileType.restrictedDir } false ∧
    new_with_options ("root") restrictedStream false = some restrictedState ∧
    ((restrictedState.arena.get? 1).map (fun n => n.entry.ft)) = some FileType.restrictedDir ∧
    childrenOf restrictedState.arena 1 = [] ∧
    renderSuffix restrictedState 1 = RESTRICTED_MARK :=
  restricted_dir_downgrade [Except.ok (mkFileDe ("X") 1)]
    (de_to_fsentry (mkDirDe ("D") 1)) false ("D") (by decide)

/-- `chainSumF` is fuel-stable once the fuel covers the index distance. -/
theorem chainSumF_stable (st : TState) (width : Nat) :
    ∀ fuel s e fuel', e - s ≤ fuel → e - s ≤ fuel' →
      chainSumF st width fuel s e = chainSumF st width fuel' s e := by
  intro fuel
  induction fuel with
  | zero =>
      intro s e fuel' h1 _
      cases fuel' with
      | zero => rfl
      | succ f' =>
          simp only [chainSumF]
          rw [if_neg (by omega)]
  | succ f ih =>
      intro s e fuel' h1 h2
      cases fuel' with
      | zero =>
          simp only [chainSumF]
          rw [if_neg (by omega)]
      | succ f' =>
          simp only [chainSumF]
          by_cases hse : s < e
          · rw [if_pos hse, if_pos hse]
            by_cases hnx : s < nextOfLine st s
            · rw [if_pos hnx, if_pos hnx,
                ih (nextOfLine st s) e f' (by omega) (by omega)]
            · rw [if_neg hnx, if_neg hnx]
          · rw [if_neg hse, if_neg hse]

/-- Prepending one unit-cost chain line to a chain sum. -/
theorem chainSum_prev (st : TState) (width : Nat) {p j e : Nat}
    (hnext : nextOfLine st p = j) (hpj : p < j) (hpe : p < e)
    (hcost : visual_lines_for_line st p width = 1) :
    chainSum st width p e = 1 + chainSum st width j e := by
  unfold chainSum
  rw [show e - p = (e - p - 1) + 1 from by omega]
  simp only [chainSumF]
  rw [if_pos hpe, hnext, if_pos hpj, hcost,
    chainSumF_stable st width (e - p - 1) j e (e - j) (by omega) (by omega)]

/-- A single unit-cost line is a chain of total cost one. -/
theorem chainSum_single (st : TState) (width : Nat) {e : Nat}
    (hcost : visual_lines_for_line st e width = 1) :
    chainSum st width e (e + 1) = 1 := by
  unfold chainSum
  rw [show e + 1 - e = 1 from by omega]
  simp only [chainSumF]
  rw [if_pos (by omega), hcost]
  by_cases hnx : e < nextOfLine st e
  · rw [if_pos hnx]
  · rw [if_neg hnx]

/-- The empty chain. -/
theorem chainSum_refl (st : TState) (width e : Nat) :
    chainSum st width e e = 0 := by
  unfold chainSum
  rw [Nat.sub_self]
  rfl

/-- Characterization of the backward walks over a set `V` of visible lines
closed under coherent `prev` links, with unit costs on `V`: the walk
returns a chain predecessor `s` of `start` together with the budget
shortfall, and the cost it moved past is exactly recovered as a chain-sum
difference toward any later cut-off `e`; a nonzero shortfall means the
very first visible line was reached. -/
theorem walkBack_spec (st : TState) (width : Nat) (V : List Nat)
    (W1 : ∀ j ∈ V, ∀ t, prevOfLine st j = some t →
      t ∈ V ∧ t < j ∧ nextOfLine st t = j)
    (U : ∀ j ∈ V, visual_lines_for_line st j width = 1) :
    ∀ fuel start i0 space e, start ∈ V → start ≤ e →
      i0 + fuel = space →
      ∃ s d t, walkBack st width fuel start i0 space = (s, d) ∧
        d = space - i0 - t ∧
        chainSum st width s e = t + chainSum st width start e ∧
        t ≤ fuel ∧ s ≤ start ∧ s ∈ V ∧
        (d ≠ 0 → prevOfLine st s = none) := by
  intro fuel
  induction fuel with
  | zero =>
      intro start i0 space e hsV hse hi
      exact ⟨start, 0, 0, rfl, by omega, by omega, Nat.le_refl _,
        Nat.le_refl _, hsV, fun h => absurd rfl h⟩
  | succ f ih =>
      intro start i0 space e hsV hse hi
      have hi0 : i0 < space := by omega
      cases hp : prevOfLine st start with
      | none =>
          refine ⟨start, space - i0, 0, ?_, by omega, by omega, by omega,
            Nat.le_refl _, hsV, fun _ => hp⟩
          simp only [walkBack]
          rw [if_pos hi0, hp]
      | some p =>
          obtain ⟨hpV, hpj, hnext⟩ := W1 start hsV p hp
          obtain ⟨s, d, t, heq, hd, hsum, ht, hsle, hsV2, hnone⟩ :=
            ih p (i0 + 1) space e hpV (by omega) (by omega)
          refine ⟨s, d, t + 1, ?_, by omega, ?_, by omega, by omega, hsV2, hnone⟩
          · simp only [walkBack]
            rw [if_pos hi0, hp]
            show walkBack st width f p (i0 + visual_lines_for_line st start width) space = (s, d)
            rw [U start hsV]
            exact heq
          · rw [hsum, chainSum_prev st width hnext hpj (by omega) (U p hpV)]
            omega

/-- Characterization of the forward walk over a set `V` of visible lines
closed under in-range `next` links, with unit costs on `V`: it returns an
exclusive end `E` after `start`, the chain cost from `start` to `E`, and
the shortfall; whenever the budget is positive the walk makes progress. -/
theorem walkFwd_spec (st : TState) (width : Nat) (V : List Nat)
    (W2 : ∀ j ∈ V, nextOfLine st j < st.lines.lines.length →
      j < nextOfLine st j ∧ nextOfLine st j ∈ V)
    (U : ∀ j ∈ V, visual_lines_for_line st j width = 1) :
    ∀ fuel e0 i endMax, e0 ∈ V → i + fuel = endMax →
      ∃ E d c, walkFwd st width fuel e0 i endMax = (E, d) ∧
        d = endMax - i - c ∧
        chainSum st width e0 E = c ∧
        c ≤ fuel ∧ e0 ≤ E ∧ (i < endMax → e0 < E) := by
  intro fuel
  induction fuel with
  | zero =>
      intro e0 i endMax heV hi
      exact ⟨e0, 0, 0, rfl, by omega, chainSum_refl st width e0, Nat.le_refl _,
        Nat.le_refl _, fun h => absurd h (by omega)⟩
  | succ f ih =>
      intro e0 i endMax heV hi
      have hi0 : i < endMax := by omega
      by_cases hnx : nextOfLine st e0 < st.lines.lines.length
      · obtain ⟨hee, hnxV⟩ := W2 e0 heV hnx
        obtain ⟨E, d, c, heq, hd, hsum, hc, hle, hlt⟩ :=
          ih (nextOfLine st e0) (i + 1) endMax hnxV (by omega)
        refine ⟨E, d, c + 1, ?_, by omega, ?_, by omega, by omega, fun _ => by omega⟩
        · simp only [walkFwd]
          rw [if_pos hi0, if_pos hnx]
          show walkFwd st width f (nextOfLine st e0) (i + visual_lines_for_line st e0 width) endMax = (E, d)
          rw [U e0 heV]
          exact heq
        · rw [chainSum_prev st width rfl hee (by omega) (U e0 heV), hsum]
          omega
      · refine ⟨e0 + 1, endMax - i - 1, 1, ?_, by omega,
          chainSum_single st width (U e0 heV), by omega, by omega, fun _ => by omega⟩
        simp only [walkFwd]
        rw [if_pos hi0, if_neg hnx]

/-- C3 (amended): over any set `V` of visible lines containing the focus
line and closed under the `prev`/`next` links (any folded projection's
visible chain qualifies), when every visible line costs exactly one visual
line (no wrapping) and `1 ≤ n`, the window `[start, end)` contains the
focus line, its chain cost is at most `n`, and it falls short of `n` only
when the window already begins at the very first visible line; in
particular the cost equals `n` whenever enough lines exist on both sides.
For `n = 0` the window is empty and does not contain the focus line, and
with wrapping (costs larger than one) the chain cost can exceed `n`: see
the counterexample. -/
theorem bounds_window_spec (st : TState) (width y n : Nat) (V : List Nat)
    (hyV : y ∈ V)
    (W1 : ∀ j ∈ V, ∀ t, prevOfLine st j = some t →
      t ∈ V ∧ t < j ∧ nextOfLine st t = j)
    (W2 : ∀ j ∈ V, nextOfLine st j < st.lines.lines.length →
      j < nextOfLine st j ∧ nextOfLine st j ∈ V)
    (U : ∀ j ∈ V, visual_lines_for_line st j width = 1)
    (hn : 1 ≤ n) :
    (bounds_of_range_around_line st y n width).1 ≤ y ∧
    y < (bounds_of_range_around_line st y n width).2 ∧
    chainSum st width (bounds_of_range_around_line st y n width).1
      (bounds_of_range_around_line st y n width).2 ≤ n ∧
    ∃ d3, chainSum st width (bounds_of_range_around_line st y n width).1
        (bounds_of_range_around_line st y n width).2 + d3 = n ∧
      (d3 ≠ 0 →
        prevOfLine st (bounds_of_range_around_line st y n width).1 = none) := by
  obtain ⟨E, d2, c, heq2, hd2, hsum2, hc2, hle2, hlt2⟩ :=
    walkFwd_spec st width V W2 U
      (n / 2 + n % 2 + (walkBack st width (n / 2) y 0 (n / 2)).2) y 0
      (n / 2 + n % 2 + (walkBack st width (n / 2) y 0 (n / 2)).2) hyV (by omega)
  obtain ⟨s1, d1, t1, heq1, hd1, hsum1, ht1, hs1y, hs1V, hnone1⟩ :=
    walkBack_spec st width V W1 U (n / 2) y 0 (n / 2) E hyV hle2 (by omega)
  simp only [heq1] at heq2 hd2 hc2 hlt2
  obtain ⟨s, d3, t3, heq3, hd3, hsum3, ht3, hsy3, hsV3, hnone3⟩ :=
    walkBack_spec st width V W1 U d2 s1 0 d2 E hs1V (by omega) (by omega)
  have hyE : y < E := hlt2 (by omega)
  have hS : chainSum st width s E = t3 + (t1 + c) := by
    rw [hsum3, hsum1, hsum2]
  simp only [bounds_of_range_around_line, heq1, heq2, heq3]
  refine ⟨by omega, hyE, by omega, d3, by omega, hnone3⟩

/-- C3 counterexample: with wrapping (width 2) the two-file state has a
total visible cost of 24, yet for the focus line 1 and budget `n = 4 ≤ 24`
the returned window's chain cost is 13, far above the budget; and for
`n = 0` the returned window is empty and does not contain the focus
line. -/
theorem C3_counterexample :
    4 ≤ chainSum simpleState 2 0 simpleState.lines.lines.length ∧
    4 < chainSum simpleState 2
        (bounds_of_range_around_line simpleState 1 4 2).1
        (bounds_of_range_around_line simpleState 1 4 2).2 ∧
    ¬ ((bounds_of_range_around_line simpleState 1 0 2).1 ≤ 1 ∧
       1 < (bounds_of_range_around_line simpleState 1 0 2).2) := by decide

/-- C3 witness: the amended window property at the one-directory state
with directory `D` folded (visible chain `[0, 1]`, the child line hidden),
no wrapping (width 1000), focus line 1 and budget 2. -/
theorem C3_witness :
    (bounds_of_range_around_line oneDirFoldedState 1 2 1000).1 ≤ 1 ∧
    1 < (bounds_of_range_around_line oneDirFoldedState 1 2 1000).2 ∧
    chainSum oneDirFoldedState 1000 (bounds_of_range_around_line oneDirFoldedState 1 2 1000).1
      (bounds_of_range_around_line oneDirFoldedState 1 2 1000).2 ≤ 2 ∧
    ∃ d3, chainSum oneDirFoldedState 1000
        (bounds_of_range_around_line oneDirFoldedState 1 2 1000).1
        (bounds_of_range_around_line oneDirFoldedState 1 2 1000).2 + d3 = 2 ∧
      (d3 ≠ 0 →
        prevOfLine oneDirFoldedState
          (bounds_of_range_around_line oneDirFoldedState 1 2 1000).1 = none) :=
  bounds_window_spec oneDirFoldedState 1000 1 2 [0, 1] (by decide)
    (by
      intro j hj t ht
      simp only [List.mem_cons, List.mem_singleton, List.not_mem_nil, or_false] at hj
      rcases hj with h | h <;> subst h
      · have h0 : prevOfLine oneDirFoldedState 0 = none := by decide
        rw [h0] at ht
        exact Option.noConfusion ht
      · have h1 : prevOfLine oneDirFoldedState 1 = some 0 := by decide
        rw [h1] at ht
        injection ht with h2
        subst h2
        exact ⟨by decide, by decide, by decide⟩)
    (by decide) (by decide) (by decide)

/-! ## Depth-first contiguity of the drawing order -/

theorem getLast?_none_nil : ∀ {l : List Nat}, l.getLast? = none → l = [] := by
  intro l
  induction l with
  | nil => intro _; rfl
  | cons a t ih =>
      intro h
      cases t with
      | nil =>
          rw [List.getLast?_singleton] at h
          exact Option.noConfusion h
      | cons b t2 =>
          rw [List.getLast?_cons_cons] at h
          exact absurd (ih h) (by simp)

theorem getLast?_some_split : ∀ {l : List Nat} {x : Nat}, l.getLast? = some x →
    ∃ init, l = init ++ [x] := by
  intro l
  induction l with
  | nil => intro x h; exact Option.noConfusion h
  | cons a t ih =>
      intro x h
      cases t with
      | nil =>
          rw [List.getLast?_singleton] at h
          injection h with hax
          exact ⟨[], by rw [hax]; rfl⟩
      | cons b t2 =>
          rw [List.getLast?_cons_cons] at h
          obtain ⟨init, hi⟩ := ih h
          exact ⟨a :: init, by rw [hi]; rfl⟩

theorem listNextAfter_append_not_mem {pre l : List Nat} {x : Nat} (h : x ∉ pre) :
    listNextAfter (pre ++ l) x = listNextAfter l x := by
  induction pre with
  | nil => rfl
  | cons a t ih =>
      simp only [List.mem_cons, not_or] at h
      rw [List.cons_append, listNextAfter, if_neg (fun he => h.1 he.symm)]
      exact ih h.2

theorem listNextAfter_getLast :
    ∀ {l : List Nat}, List.Pairwise (· < ·) l → ∀ {x : Nat},
      l.getLast? = some x → listNextAfter l x = none := by
  intro l
  induction l with
  | nil => intro _ x h; exact Option.noConfusion h
  | cons a t ih =>
      intro hpw x h
      cases t with
      | nil =>
          rw [List.getLast?_singleton] at h
          injection h with hax
          subst hax
          rw [listNextAfter, if_pos rfl]
          rfl
      | cons b t2 =>
          rw [List.getLast?_cons_cons] at h
          have hmem : x ∈ b :: t2 := List.mem_of_getLast?_eq_some h
          have hax : a < x := (List.pairwise_cons.1 hpw).1 x hmem
          rw [listNextAfter, if_neg (by omega)]
          exact ih (List.pairwise_cons.1 hpw).2 h

/-- `deepestLastDesc` is fuel-stable once the fuel reaches the arena size
(children have larger ids on builder arenas). -/
theorem deepestLastDesc_stable {a : Arena} (hwf : WfAr a) :
    ∀ f q g, q < a.length → a.length ≤ f + q → a.length ≤ g + q →
      deepestLastDesc a f q = deepestLastDesc a g q := by
  intro f
  induction f with
  | zero => intro q g hq h1 _; omega
  | succ m ih =>
      intro q g hq h1 h2
      cases g with
      | zero => omega
      | succ m2 =>
          simp only [deepestLastDesc]
          cases hlc : lastChildOf a q with
          | none => rfl
          | some c =>
              have hcm : c ∈ childrenOf a q := List.mem_of_getLast?_eq_some hlc
              have hgt := hwf.childGt q c hcm
              have hlt := hwf.childLtLen q c hcm
              exact ih c m2 hlt (by omega) (by omega)

theorem deepestLastDesc_none {a : Arena} {q : Nat} (h : lastChildOf a q = none) :
    ∀ f, deepestLastDesc a f q = q := by
  intro f
  cases f with
  | zero => rfl
  | succ m => simp only [deepestLastDesc, h]

theorem deepestLastDesc_step {a : Arena} {q c : Nat} (h : lastChildOf a q = some c) :
    ∀ m, deepestLastDesc a (m + 1) q = deepestLastDesc a m c := by
  intro m
  simp only [deepestLastDesc, h]

/-- Descending into the last child preserves the deepest last descendant. -/
theorem deepestLastDesc_lastChild {a : Arena} (hwf : WfAr a) {q c : Nat}
    (hq : q < a.length) (h : lastChildOf a q = some c) :
    deepestLastDesc a a.length q = deepestLastDesc a a.length c := by
  have hcm : c ∈ childrenOf a q := List.mem_of_getLast?_eq_some h
  have hlt := hwf.childLtLen q c hcm
  have hcz : c ≠ 0 := (child_valid hwf hcm).2
  have hL : a.length = (a.length - 1) + 1 := by omega
  conv_lhs => rw [hL]
  rw [deepestLastDesc_step h]
  exact deepestLastDesc_stable hwf (a.length - 1) c a.length hlt (by omega) (by omega)

/-- The deepest last descendant is a descendant. -/
theorem deepestLastDesc_desc {a : Arena} (hwf : WfAr a) :
    ∀ f q, Desc a q (deepestLastDesc a f q) := by
  intro f
  induction f with
  | zero => intro q; exact Desc.refl q
  | succ m ih =>
      intro q
      cases hlc : lastChildOf a q with
      | none => rw [deepestLastDesc_none hlc]; exact Desc.refl q
      | some c =>
          rw [deepestLastDesc_step hlc m]
          exact desc_of_child hwf (List.mem_of_getLast?_eq_some hlc) (ih c)

theorem subtreeSuccessor_none (a : Arena) : ∀ f, subtreeSuccessor a f none = some none := by
  intro f
  cases f with
  | zero => rfl
  | succ m => rfl

/-- `subtreeSuccessor` is fuel-stable above the node id (the walk climbs
the strictly decreasing parent chain). -/
theorem subtreeSuccessor_stable {a : Arena}
    (hp : ∀ i p, parentOf a i = some p → p < i) :
    ∀ f q g, q < f → q < g →
      subtreeSuccessor a f (some q) = subtreeSuccessor a g (some q) := by
  intro f
  induction f with
  | zero => intro q g h1 _; omega
  | succ m ih =>
      intro q g h1 h2
      cases g with
      | zero => omega
      | succ m2 =>
          simp only [subtreeSuccessor]
          cases hns : nextSiblingOf a q with
          | some nx => rfl
          | none =>
              cases hpar : parentOf a q with
              | none => rw [subtreeSuccessor_none, subtreeSuccessor_none]
              | some p =>
                  have := hp q p hpar
                  exact ih p m2 (by omega) (by omega)

theorem subtreeSuccessor_sib {a : Arena} {q nx : Nat} (hq : q < a.length)
    (h : nextSiblingOf a q = some nx) :
    subtreeSuccessor a a.length (some q) = some (some nx) := by
  have hL : a.length = (a.length - 1) + 1 := by omega
  rw [hL]
  simp only [subtreeSuccessor, h]

theorem subtreeSuccessor_up {a : Arena} {q : Nat} (hq : q < a.length)
    (h : nextSiblingOf a q = none) :
    subtreeSuccessor a a.length (some q)
      = subtreeSuccessor a (a.length - 1) (parentOf a q) := by
  have hL : a.length = (a.length - 1) + 1 := by omega
  conv_lhs => rw [hL]
  simp only [subtreeSuccessor, h]

/-- All nodes on a last-child chain share the deepest last descendant. -/
theorem lastChain_dld {a : Arena} (hwf : WfAr a) :
    ∀ {n v : Nat}, LastChain a n v → n < a.length →
      deepestLastDesc a a.length n = deepestLastDesc a a.length v := by
  intro n v h
  induction h with
  | refl => intro _; rfl
  | @step n c v hlc hch ih =>
      intro hn
      have hcm := List.mem_of_getLast?_eq_some hlc
      have hcl := hwf.childLtLen _ _ hcm
      rw [deepestLastDesc_lastChild hwf hn hlc]
      exact ih hcl

/-- All nodes on a last-child chain share the subtree successor: the
climb out of `v` passes exactly through the chain back to `n`. -/
theorem lastChain_succ {a : Arena} (hwf : WfAr a) :
    ∀ {n v : Nat}, LastChain a n v → n < a.length →
      subtreeSuccessor a a.length (some v) = subtreeSuccessor a a.length (some n) := by
  intro n v h
  induction h with
  | refl => intro _; rfl
  | @step n c v hlc hch ih =>
      intro hn
      have hcm := List.mem_of_getLast?_eq_some hlc
      have hclt := hwf.childLtLen _ _ hcm
      have hcgt := hwf.childGt _ _ hcm
      rw [ih hclt]
      have hns : nextSiblingOf a c = none := by
        unfold nextSiblingOf
        rw [hwf.childParent _ _ hcm]
        simp only [Option.some_bind]
        exact listNextAfter_getLast (hwf.childSorted n) hlc
      rw [subtreeSuccessor_up hclt hns, hwf.childParent _ _ hcm]
      exact subtreeSuccessor_stable hwf.parentsLt (a.length - 1) n a.length
        (by omega) (by omega)

theorem foldl_count_mono_of (f : TreeLines → Nat → TreeLines)
    (hf : ∀ tl c, tl.count ≤ (f tl c).count) :
    ∀ (cs : List Nat) (tl : TreeLines), tl.count ≤ (cs.foldl f tl).count := by
  intro cs
  induction cs with
  | nil => intro tl; exact Nat.le_refl _
  | cons c rest ih =>
      intro tl
      rw [List.foldl_cons]
      exact Nat.le_trans (hf tl c) (ih (f tl c))

theorem drawFromA_count_mono (a : Arena) :
    ∀ fuel node indents tl, tl.count ≤ (drawFromA a fuel node indents tl).count := by
  intro fuel
  induction fuel with
  | zero => intro node indents tl; exact Nat.le_refl _
  | succ n ih =>
      intro node indents tl
      simp only [drawFromA]
      exact foldl_count_mono_of _
        (fun tl0 c => Nat.le_trans (Nat.le_succ _)
          (ih c (indents ++ [if some c = lastChildOf a node then Indent.blank else Indent.bar])
            (tl0.add c (indentsConcat indents ++
              (if some c = lastChildOf a node then END_BRANCH else MID_BRANCH))))) _ tl

/-- A generic extension property of folding draw steps: the `inds` map
only grows, each new key tagged by the child whose step added it, and the
count/length invariant is preserved. -/
theorem foldl_inds_extends_of (f : TreeLines → Nat → TreeLines) (K : Nat → Nat → Prop) :
    ∀ (cs : List Nat),
      (∀ tl c, c ∈ cs → tl.count = tl.lines.length →
        (f tl c).count = (f tl c).lines.length ∧
        ∃ pre, (f tl c).inds = pre ++ tl.inds ∧ ∀ p ∈ pre, K c p.1) →
      ∀ tl, tl.count = tl.lines.length →
        (cs.foldl f tl).count = (cs.foldl f tl).lines.length ∧
        ∃ pre, (cs.foldl f tl).inds = pre ++ tl.inds ∧
          ∀ p ∈ pre, ∃ c, c ∈ cs ∧ K c p.1 := by
  intro cs
  induction cs with
  | nil =>
      intro _ tl htl
      exact ⟨htl, [], rfl, fun p hp => absurd hp (List.not_mem_nil p)⟩
  | cons c rest ih =>
      intro hf tl htl
      rw [List.foldl_cons]
      obtain ⟨hc1, pre1, he1, hk1⟩ := hf tl c (List.mem_cons_self c rest) htl
      obtain ⟨hc2, pre2, he2, hk2⟩ :=
        ih (fun tl' c' hc' => hf tl' c' (List.mem_cons_of_mem c hc')) (f tl c) hc1
      refine ⟨hc2, pre2 ++ pre1, ?_, ?_⟩
      · rw [he2, he1, List.append_assoc]
      · intro p hp
        rcases List.mem_append.1 hp with h | h
        · obtain ⟨c2, hc2m, hk⟩ := hk2 p h
          exact ⟨c2, List.mem_cons_of_mem c hc2m, hk⟩
        · exact ⟨c, List.mem_cons_self c rest, hk1 p h⟩

/-- `drawFromA` only ever appends lines through `TreeLines.add`, so any
property preserved by `add` is preserved by drawing. -/
theorem drawFromA_preserves (a : Arena) (P : TreeLines → Prop)
    (hadd : ∀ tl c pfx, P tl → P (TreeLines.add tl c pfx)) :
    ∀ fuel node indents tl, P tl → P (drawFromA a fuel node indents tl) := by
  intro fuel
  induction fuel with
  | zero => intro _ _ _ h; exact h
  | succ n ih =>
      intro node indents tl h
      simp only [drawFromA]
      have hinner : ∀ (cs : List Nat) (tl0 : TreeLines), P tl0 →
          P (cs.foldl
            (fun tl c =>
              let isLast := some c = lastChildOf a node
              let pfx := indentsConcat indents ++ (if isLast then END_BRANCH else MID_BRANCH)
              drawFromA a n c (indents ++ [if isLast then Indent.blank else Indent.bar])
                (tl.add c pfx)) tl0) := by
        intro cs
        induction cs with
        | nil => intro tl0 h0; exact h0
        | cons c rest ihl =>
            intro tl0 h0
            rw [List.foldl_cons]
            exact ihl _ (ih c _ _ (hadd _ _ _ h0))
      exact hinner _ tl h

/-- A fresh draw produces the linear linkage: line `k` has `next = k + 1`
and `prev = k - 1` (`none` for the first line). -/
theorem draw_lines_linear (a : Arena) (root : Nat) :
    (draw a root).count = (draw a root).lines.length ∧
    ∀ k lk, (draw a root).lines.get? k = some lk →
      lk.next = k + 1 ∧ lk.prev = (if k = 0 then none else some (k - 1)) := by
  have hpres := drawFromA_preserves a
    (fun tl => tl.count = tl.lines.length ∧
      ∀ k lk, tl.lines.get? k = some lk →
        lk.next = k + 1 ∧ lk.prev = (if k = 0 then none else some (k - 1)))
    ?hadd a.length root [] (TreeLines.new.add root ("")) ?base
  · exact hpres
  case hadd =>
    intro tl c pfx h
    obtain ⟨hc, hk⟩ := h
    refine ⟨?_, ?_⟩
    · rw [add_count, add_lines, List.length_append, List.length_singleton, hc]
    · intro k lk hget
      rw [add_lines] at hget
      by_cases hlt : k < tl.lines.length
      · rw [List.get?_append hlt] at hget
        exact hk k lk hget
      · have hklen : k = tl.lines.length := by
          by_contra hne
          have : tl.lines.length + 1 ≤ k := by omega
          rw [List.get?_eq_none.2 (by
            rw [List.length_append, List.length_singleton]; omega)] at hget
          exact Option.noConfusion hget
        subst hklen
        rw [List.get?_append_right (Nat.le_refl _), Nat.sub_self] at hget
        injection hget with hlk
        subst hlk
        constructor
        · show tl.count + 1 = tl.lines.length + 1
          omega
        · show (if tl.count = 0 then none else some (tl.count - 1))
            = if tl.lines.length = 0 then none else some (tl.lines.length - 1)
          rw [hc]
  case base =>
    refine ⟨rfl, ?_⟩
    intro k lk hget
    cases k with
    | zero =>
        injection hget with hlk
        subst hlk
        exact ⟨rfl, rfl⟩
    | succ k2 =>
        rw [show (TreeLines.new.add root ("")).lines.get? (k2 + 1) = none from rfl] at hget
        exact Option.noConfusion hget

/-- A fresh draw has nothing folded. -/
theorem draw_folded (a : Arena) (root : Nat) : (draw a root).folded = [] :=
  drawFromA_preserves a (fun tl => tl.folded = [])
    (fun _ _ _ h => h) a.length root [] (TreeLines.new.add root ("")) rfl

/-- The deepest last descendant of the node a draw step descends from is
the last node the step draws: its `inds` entry is the final count minus
one. -/
theorem drawFromA_dld (a : Arena) (hwf : WfAr a) :
    ∀ fuel node indents tl,
      node < a.length → a.length ≤ fuel + node →
      lookupA tl.inds node = some (tl.count - 1) → 1 ≤ tl.count →
      lookupA (drawFromA a fuel node indents tl).inds
          (deepestLastDesc a a.length node)
        = some ((drawFromA a fuel node indents tl).count - 1) ∧
      tl.count ≤ (drawFromA a fuel node indents tl).count := by
  intro fuel
  induction fuel using Nat.strong_induction_on with
  | _ fuel ihf =>
      intro node indents tl hnl hfl hlook hcnt
      cases fuel with
      | zero => omega
      | succ n =>
          cases hlast : lastChildOf a node with
          | none =>
              have hcs : childrenOf a node = [] := by
                unfold lastChildOf at hlast
                exact getLast?_none_nil hlast
              simp only [drawFromA]
              rw [hcs, List.foldl_nil, deepestLastDesc_none hlast]
              exact ⟨hlook, Nat.le_refl _⟩
          | some lst =>
              have hlstm : lst ∈ childrenOf a node := List.mem_of_getLast?_eq_some hlast
              have hlstlt := hwf.childLtLen _ _ hlstm
              have hlstgt := hwf.childGt _ _ hlstm
              obtain ⟨init, hinit⟩ := getLast?_some_split
                (show (childrenOf a node).getLast? = some lst from hlast)
              simp only [drawFromA]
              rw [hinit, List.foldl_append, List.foldl_cons, List.foldl_nil,
                deepestLastDesc_lastChild hwf hnl hlast]
              have hmono : tl.count ≤ (List.foldl
                  (fun tl c =>
                    let isLast := some c = lastChildOf a node
                    let pfx := indentsConcat indents ++
                      (if isLast then END_BRANCH else MID_BRANCH)
                    drawFromA a n c (indents ++ [if isLast then Indent.blank else Indent.bar])
                      (tl.add c pfx)) tl init).count :=
                foldl_count_mono_of _
                  (fun tl0 c => Nat.le_trans (Nat.le_succ _)
                    (drawFromA_count_mono a n c
                      (indents ++ [if some c = lastChildOf a node then Indent.blank else Indent.bar])
                      (tl0.add c (indentsConcat indents ++
                        (if some c = lastChildOf a node then END_BRANCH else MID_BRANCH)))))
                  init tl
              obtain ⟨h1, h2⟩ := ihf n (by omega) lst
                (indents ++ [if some lst = lastChildOf a node then Indent.blank else Indent.bar])
                ((List.foldl
                  (fun tl c =>
                    let isLast := some c = lastChildOf a node
                    let pfx := indentsConcat indents ++
                      (if isLast then END_BRANCH else MID_BRANCH)
                    drawFromA a n c (indents ++ [if isLast then Indent.blank else Indent.bar])
                      (tl.add c pfx)) tl init).add lst
                  (indentsConcat indents ++
                    (if some lst = lastChildOf a node then END_BRANCH else MID_BRANCH)))
                hlstlt (by omega)
                (by rw [add_inds, add_count, lookupA_cons, if_pos rfl, Nat.add_sub_cancel])
                (by rw [add_count]; omega)
              refine ⟨h1, ?_⟩
              refine Nat.le_trans hmono (Nat.le_trans ?_ h2)
              rw [add_count]
              exact Nat.le_succ _

/-- Depth-first contiguity of `drawFromA`: for every proper descendant `v`
of the node being drawn that is not on the node's last-child chain, the
subtree successor of `v` exists inside the drawn region and its line index
is one past the deepest last descendant of `v`. -/
theorem drawFromA_succ (a : Arena) (hwf : WfAr a) :
    ∀ fuel node indents tl,
      node < a.length → a.length ≤ fuel + node →
      indents = subIndents a node →
      tl.count = tl.lines.length →
      lookupA tl.inds node = some (tl.count - 1) → 1 ≤ tl.count →
      ∀ v, Desc a node v → ¬ LastChain a node v →
      ∃ w dv, subtreeSuccessor a a.length (some v) = some (some w) ∧
        lookupA (drawFromA a fuel node indents tl).inds
          (deepestLastDesc a a.length v) = some dv ∧
        lookupA (drawFromA a fuel node indents tl).inds w = some (dv + 1) ∧
        Desc a node w ∧ node < w := by
  intro fuel
  induction fuel using Nat.strong_induction_on with
  | _ fuel ihf =>
      intro node indents tl hnl hfl hind hcnt hlook h1c v hdv hnLC
      cases fuel with
      | zero => omega
      | succ n =>
          have hvne : v ≠ node := fun he => hnLC (by rw [he]; exact LastChain.refl node)
          obtain ⟨c0, hc0m, hdc0⟩ := desc_child hwf hdv hvne
          have hpwcs := hwf.childSorted node
          set F := (fun (tl : TreeLines) (c : Nat) =>
              let isLast := some c = lastChildOf a node
              let pfx := indentsConcat indents ++
                (if isLast then END_BRANCH else MID_BRANCH)
              drawFromA a n c
                (indents ++ [if isLast then Indent.blank else Indent.bar])
                (tl.add c pfx)) with hF
          have hstepAll : ∀ (tlx : TreeLines) c, c ∈ childrenOf a node →
              tlx.count = tlx.lines.length →
              (F tlx c).count = (F tlx c).lines.length ∧
              lookupA (F tlx c).inds c = some tlx.count ∧
              ∃ pre, (F tlx c).inds = pre ++ tlx.inds ∧ ∀ p ∈ pre, Desc a c p.1 := by
            intro tlx c hcm htlx
            have hclt := hwf.childLtLen _ _ hcm
            have hcgt := hwf.childGt _ _ hcm
            have hindc : indents ++ [if some c = lastChildOf a node
                then Indent.blank else Indent.bar] = subIndents a c := by
              rw [hind, subIndents_child hwf.parentsLt (hwf.childParent _ _ hcm)]
            obtain ⟨prec, postc, hic, hlc, hcc, _, hkc, _⟩ :=
              drawFromA_spec a hwf n c
                (indents ++ [if some c = lastChildOf a node then Indent.blank else Indent.bar])
                (tlx.add c (indentsConcat indents ++
                  (if some c = lastChildOf a node then END_BRANCH else MID_BRANCH)))
                hclt (by omega) hindc
                (by rw [add_count, add_lines, List.length_append, List.length_singleton, htlx])
            have hFc : F tlx c = drawFromA a n c
                (indents ++ [if some c = lastChildOf a node then Indent.blank else Indent.bar])
                (tlx.add c (indentsConcat indents ++
                  (if some c = lastChildOf a node then END_BRANCH else MID_BRANCH))) := rfl
            refine ⟨?_, ?_, prec ++ [(c, tlx.count)], ?_, ?_⟩
            · rw [hFc, hcc, hlc, add_count, add_lines]
              simp only [List.length_append, List.length_singleton]
              omega
            · rw [hFc, hic, lookupA_append_of_no_key _ _ _ (fun p hp => (hkc p hp).2),
                add_inds, lookupA_cons, if_pos rfl]
            · rw [hFc, hic, add_inds, List.append_assoc]
              rfl
            · intro p hp
              rcases List.mem_append.1 hp with h | h
              · exact (hkc p h).1
              · have hpe : p = (c, tlx.count) := by simpa using h
                rw [hpe]
                exact Desc.refl c
          have hdldAll : ∀ (tlx : TreeLines) c, c ∈ childrenOf a node →
              lookupA (F tlx c).inds (deepestLastDesc a a.length c)
                = some ((F tlx c).count - 1) ∧
              tlx.count + 1 ≤ (F tlx c).count := by
            intro tlx c hcm
            have hclt := hwf.childLtLen _ _ hcm
            have hcgt := hwf.childGt _ _ hcm
            obtain ⟨h1, h2⟩ := drawFromA_dld a hwf n c
              (indents ++ [if some c = lastChildOf a node then Indent.blank else Indent.bar])
              (tlx.add c (indentsConcat indents ++
                (if some c = lastChildOf a node then END_BRANCH else MID_BRANCH)))
              hclt (by omega)
              (by rw [add_inds, add_count, lookupA_cons, if_pos rfl, Nat.add_sub_cancel])
              (by rw [add_count]; omega)
            exact ⟨h1, h2⟩
          have hsuccAll : ∀ (tlx : TreeLines) c, c ∈ childrenOf a node →
              tlx.count = tlx.lines.length →
              ∀ v2, Desc a c v2 → ¬ LastChain a c v2 →
              ∃ w dvv, subtreeSuccessor a a.length (some v2) = some (some w) ∧
                lookupA (F tlx c).inds (deepestLastDesc a a.length v2) = some dvv ∧
                lookupA (F tlx c).inds w = some (dvv + 1) ∧
                Desc a c w ∧ c < w := by
            intro tlx c hcm htlx v2 hd2 hnlc2
            have hclt := hwf.childLtLen _ _ hcm
            have hcgt := hwf.childGt _ _ hcm
            have hindc : indents ++ [if some c = lastChildOf a node
                then Indent.blank else Indent.bar] = subIndents a c := by
              rw [hind, subIndents_child hwf.parentsLt (hwf.childParent _ _ hcm)]
            exact ihf n (by omega) c
              (indents ++ [if some c = lastChildOf a node then Indent.blank else Indent.bar])
              (tlx.add c (indentsConcat indents ++
                (if some c = lastChildOf a node then END_BRANCH else MID_BRANCH)))
              hclt (by omega) hindc
              (by rw [add_count, add_lines, List.length_append, List.length_singleton, htlx])
              (by rw [add_inds, add_count, lookupA_cons, if_pos rfl, Nat.add_sub_cancel])
              (by rw [add_count]; omega)
              v2 hd2 hnlc2
          have hinner : ∀ cs' : List Nat, (∃ pre0, childrenOf a node = pre0 ++ cs') →
              ∀ tl0 : TreeLines, tl0.count = tl0.lines.length →
              ∀ v2 c02, c02 ∈ cs' → Desc a c02 v2 →
              (∀ cl, cs'.getLast? = some cl → ¬ LastChain a cl v2) →
              ∃ w dvv,
                subtreeSuccessor a a.length (some v2) = some (some w) ∧
                lookupA (cs'.foldl F tl0).inds (deepestLastDesc a a.length v2)
                  = some dvv ∧
                lookupA (cs'.foldl F tl0).inds w = some (dvv + 1) ∧
                ∃ c2, c2 ∈ cs' ∧ Desc a c2 w := by
            intro cs'
            induction cs' with
            | nil =>
                intro _ _ _ v2 c02 hc02m
                exact absurd hc02m (List.not_mem_nil _)
            | cons ci rest ihcs =>
                intro hsuf tl0 htl0 v2 c02 hc02m hdesc2 hlastc
                obtain ⟨pre0, hpre0⟩ := hsuf
                have hcim : ci ∈ childrenOf a node := by rw [hpre0]; simp
                have hcilt : ci < a.length := hwf.childLtLen _ _ hcim
                have hcigt : node < ci := hwf.childGt _ _ hcim
                have hparci : parentOf a ci = some node := hwf.childParent _ _ hcim
                have hpwapp := List.pairwise_append.1 (hpre0 ▸ hpwcs)
                have hcinotpre : ci ∉ pre0 := by
                  intro hmem
                  exact absurd (hpwapp.2.2 ci hmem ci (List.mem_cons_self _ _)) (lt_irrefl ci)
                have hcirest : ∀ x ∈ rest, ci < x := (List.pairwise_cons.1 hpwapp.2.1).1
                rcases List.mem_cons.1 hc02m with hc0eq | hc0rest
                · rw [hc0eq] at hdesc2
                  by_cases hLCci : LastChain a ci v2
                  · cases rest with
                    | nil => exact absurd hLCci (hlastc ci rfl)
                    | cons cj rest2 =>
                        have hcjm : cj ∈ childrenOf a node := by rw [hpre0]; simp
                        have hcjlt := hwf.childLtLen _ _ hcjm
                        have hcicj : ci < cj := hcirest cj (List.mem_cons_self _ _)
                        have hcjrest2 : ∀ x ∈ rest2, cj < x :=
                          (List.pairwise_cons.1 (List.pairwise_cons.1 hpwapp.2.1).2).1
                        have hnsci : nextSiblingOf a ci = some cj := by
                          unfold nextSiblingOf
                          rw [hparci]
                          simp only [Option.some_bind]
                          rw [hpre0, listNextAfter_append_not_mem hcinotpre,
                            listNextAfter, if_pos rfl]
                          rfl
                        have hsuccv : subtreeSuccessor a a.length (some v2)
                            = some (some cj) := by
                          rw [lastChain_succ hwf hLCci hcilt]
                          exact subtreeSuccessor_sib hcilt hnsci
                        have hdldeq : deepestLastDesc a a.length v2
                            = deepestLastDesc a a.length ci :=
                          (lastChain_dld hwf hLCci hcilt).symm
                        have hdldci : Desc a ci (deepestLastDesc a a.length ci) :=
                          deepestLastDesc_desc hwf _ ci
                        obtain ⟨hA1, hA2⟩ := hdldAll tl0 ci hcim
                        have hT1c := (hstepAll tl0 ci hcim htl0).1
                        obtain ⟨hT2c, hlookcj, pre2, hpe2, hpk2⟩ :=
                          hstepAll (F tl0 ci) cj hcjm hT1c
                        have hstepRest2 : ∀ (tlx : TreeLines) c, c ∈ rest2 →
                            tlx.count = tlx.lines.length →
                            (F tlx c).count = (F tlx c).lines.length ∧
                            ∃ pre, (F tlx c).inds = pre ++ tlx.inds ∧
                              ∀ p ∈ pre, Desc a c p.1 := by
                          intro tlx c hc htl
                          have hcm2 : c ∈ childrenOf a node := by rw [hpre0]; simp [hc]
                          exact ⟨(hstepAll tlx c hcm2 htl).1, (hstepAll tlx c hcm2 htl).2.2⟩
                        obtain ⟨_, PRE, hPE, hPK⟩ :=
                          foldl_inds_extends_of F (fun c k => Desc a c k) rest2
                            hstepRest2 (F (F tl0 ci) cj) hT2c
                        have hk1 : ∀ p ∈ PRE, p.1 ≠ deepestLastDesc a a.length ci := by
                          intro p hp he
                          obtain ⟨c2, hc2, hd2⟩ := hPK p hp
                          have hcic2 : ci < c2 := hcirest c2 (List.mem_cons_of_mem _ hc2)
                          have hc2m : c2 ∈ childrenOf a node := by rw [hpre0]; simp [hc2]
                          exact desc_sibling_disjoint hwf hcim hc2m (by omega)
                            hdldci (he ▸ hd2)
                        have hk2 : ∀ p ∈ pre2, p.1 ≠ deepestLastDesc a a.length ci := by
                          intro p hp he
                          exact desc_sibling_disjoint hwf hcim hcjm (by omega)
                            hdldci (he ▸ hpk2 p hp)
                        have hk3 : ∀ p ∈ PRE, p.1 ≠ cj := by
                          intro p hp he
                          obtain ⟨c2, hc2, hd2⟩ := hPK p hp
                          have := desc_le hwf.parentsLt hd2
                          have := hcjrest2 c2 hc2
                          omega
                        have hge1 : 1 ≤ (F tl0 ci).count := by
                          have := hA2
                          omega
                        refine ⟨cj, (F tl0 ci).count - 1, hsuccv, ?_, ?_,
                          cj, List.mem_cons_of_mem _ (List.mem_cons_self _ _), Desc.refl cj⟩
                        · show lookupA (rest2.foldl F (F (F tl0 ci) cj)).inds
                            (deepestLastDesc a a.length v2) = some ((F tl0 ci).count - 1)
                          rw [hdldeq, hPE, lookupA_append_of_no_key _ _ _ hk1,
                            hpe2, lookupA_append_of_no_key _ _ _ hk2]
                          exact hA1
                        · show lookupA (rest2.foldl F (F (F tl0 ci) cj)).inds cj
                            = some ((F tl0 ci).count - 1 + 1)
                          rw [hPE, lookupA_append_of_no_key _ _ _ hk3,
                            Nat.sub_add_cancel hge1]
                          exact hlookcj
                  · obtain ⟨w, dvv, hsw, hd1, hw1, hdw, hltw⟩ :=
                      hsuccAll tl0 ci hcim htl0 v2 hdesc2 hLCci
                    have hDdld : Desc a ci (deepestLastDesc a a.length v2) :=
                      desc_trans hdesc2 (deepestLastDesc_desc hwf _ v2)
                    have hstepRest : ∀ (tlx : TreeLines) c, c ∈ rest →
                        tlx.count = tlx.lines.length →
                        (F tlx c).count = (F tlx c).lines.length ∧
                        ∃ pre, (F tlx c).inds = pre ++ tlx.inds ∧
                          ∀ p ∈ pre, Desc a c p.1 := by
                      intro tlx c hc htl
                      have hcm2 : c ∈ childrenOf a node := by rw [hpre0]; simp [hc]
                      exact ⟨(hstepAll tlx c hcm2 htl).1, (hstepAll tlx c hcm2 htl).2.2⟩
                    obtain ⟨_, PRE, hPE, hPK⟩ :=
                      foldl_inds_extends_of F (fun c k => Desc a c k) rest
                        hstepRest (F tl0 ci) (hstepAll tl0 ci hcim htl0).1
                    have hk1 : ∀ p ∈ PRE, p.1 ≠ deepestLastDesc a a.length v2 := by
                      intro p hp he
                      obtain ⟨c2, hc2, hd2⟩ := hPK p hp
                      have hcic2 : ci < c2 := hcirest c2 hc2
                      have hc2m : c2 ∈ childrenOf a node := by rw [hpre0]; simp [hc2]
                      exact desc_sibling_disjoint hwf hcim hc2m (by omega) hDdld (he ▸ hd2)
                    have hk2 : ∀ p ∈ PRE, p.1 ≠ w := by
                      intro p hp he
                      obtain ⟨c2, hc2, hd2⟩ := hPK p hp
                      have hcic2 : ci < c2 := hcirest c2 hc2
                      have hc2m : c2 ∈ childrenOf a node := by rw [hpre0]; simp [hc2]
                      exact desc_sibling_disjoint hwf hcim hc2m (by omega) hdw (he ▸ hd2)
                    refine ⟨w, dvv, hsw, ?_, ?_, ci, List.mem_cons_self _ _, hdw⟩
                    · show lookupA (rest.foldl F (F tl0 ci)).inds
                        (deepestLastDesc a a.length v2) = some dvv
                      rw [hPE, lookupA_append_of_no_key _ _ _ hk1]
                      exact hd1
                    · show lookupA (rest.foldl F (F tl0 ci)).inds w = some (dvv + 1)
                      rw [hPE, lookupA_append_of_no_key _ _ _ hk2]
                      exact hw1
                · cases rest with
                  | nil => exact absurd hc0rest (List.not_mem_nil _)
                  | cons r0 rs =>
                      have hsuf2 : ∃ pre0', childrenOf a node = pre0' ++ (r0 :: rs) :=
                        ⟨pre0 ++ [ci], by rw [hpre0]; simp⟩
                      have hlast2 : ∀ cl, (r0 :: rs).getLast? = some cl →
                          ¬ LastChain a cl v2 := by
                        intro cl hcl
                        exact hlastc cl (by rw [List.getLast?_cons_cons]; exact hcl)
                      obtain ⟨w, dvv, h1, h2, h3, c2, hc2, hd2⟩ :=
                        ihcs hsuf2 (F tl0 ci) (hstepAll tl0 ci hcim htl0).1
                          v2 c02 hc0rest hdesc2 hlast2
                      exact ⟨w, dvv, h1, h2, h3, c2, List.mem_cons_of_mem _ hc2, hd2⟩
          have hlastTop : ∀ cl, (childrenOf a node).getLast? = some cl →
              ¬ LastChain a cl v := by
            intro cl hcl hLC
            exact hnLC (LastChain.step hcl hLC)
          obtain ⟨w, dv2, hsw, hld, hlw, c2, hc2m, hdw⟩ :=
            hinner (childrenOf a node) ⟨[], rfl⟩ tl hcnt v c0 hc0m hdc0 hlastTop
          have hgt := hwf.childGt node c2 hc2m
          have hle := desc_le hwf.parentsLt hdw
          exact ⟨w, dv2, hsw, hld, hlw, desc_of_child hwf hc2m hdw, by omega⟩

/-- Top-level contiguity of the initial draw: for every node whose subtree
successor exists, the successor's line immediately follows the line of the
node's deepest last descendant. -/
theorem draw_succ_contiguous (a : Arena) (hwf : WfAr a) :
    ∀ v nn, v < a.length →
      subtreeSuccessor a a.length (some v) = some (some nn) →
      ∃ dv, lookupA (draw a 0).inds (deepestLastDesc a a.length v) = some dv ∧
        lookupA (draw a 0).inds nn = some (dv + 1) := by
  intro v nn hv hs
  have h0 : 0 < a.length := by
    cases a with
    | nil => exact absurd rfl hwf.ne
    | cons x xs => simp
  by_cases hLC : LastChain a 0 v
  · rw [lastChain_succ hwf hLC h0] at hs
    have hns : nextSiblingOf a 0 = none := by
      unfold nextSiblingOf
      rw [hwf.rootParentNone]
      rfl
    rw [subtreeSuccessor_up h0 hns, hwf.rootParentNone, subtreeSuccessor_none] at hs
    injection hs with hs1
    exact Option.noConfusion hs1
  · obtain ⟨w, dv, hsw, h1, h2, _, _⟩ :=
      drawFromA_succ a hwf a.length 0 [] (TreeLines.new.add 0 ("")) h0 (by omega)
        rfl rfl rfl (Nat.le_refl 1) v (desc_root hwf v hv) hLC
    rw [hsw] at hs
    injection hs with hs1
    injection hs1 with hs2
    subst hs2
    exact ⟨dv, h1, h2⟩

/-- C1 (amended): folding a focused directory line and unfolding it again
restores the `prev`/`next` of every line whenever the pre-fold state has
the directory line unfolded with the initial-draw linkage at the fold's
patch points (its `next` one past its own index, and the successor line's
`prev` pointing at the deepest last descendant's line); in particular —
second conjunct — on any state whose lines are exactly a fresh draw of its
arena (the initial state, and any state reached from it by navigation
only), toggling fold twice on a focused directory restores the state
exactly.  When a directory inside the folded subtree's last-child chain is
itself folded, the conditions fail and the round trip rewrites the
successor's `prev`: see the counterexample. -/
theorem fold_unfold_restores :
    (∀ (st : TState) (nd : ANode) (f : Nat) (l : TreeLine)
       (so : Option Nat) (M : Nat) (dInd : Nat),
       st.arena.get? st.focused = some nd →
       nd.entry.de.ftype = some FKind.dir →
       st.lines.count = st.lines.lines.length →
       lookupA st.lines.inds st.focused = some f →
       st.lines.lines.get? f = some l →
       l.next = f + 1 →
       st.lines.folded.contains f = false →
       subtreeSuccessor st.arena st.arena.length (some st.focused) = some so →
       (∀ nn, so = some nn → lookupA st.lines.inds nn = some M) →
       (so = none → M = st.lines.count) →
       lookupA st.lines.inds
         (deepestLastDesc st.arena st.arena.length st.focused) = some dInd →
       (∀ lM, st.lines.lines.get? M = some lM → lM.prev = some dInd) →
       (fold_focus st).bind unfold_focus = some st) ∧
    (∀ (st : TState) (nd : ANode),
       WfAr st.arena → st.lines = draw st.arena 0 →
       st.arena.get? st.focused = some nd →
       nd.entry.de.ftype = some FKind.dir →
       (fold_focus st).bind unfold_focus = some st) := by
  constructor
  · exact fold_unfold_cond
  · intro st nd hwf hlines hnd hdir
    have hfoc : st.focused < st.arena.length := get?_some_lt hnd
    have hds := draw_spec st.arena hwf
    have hlin := draw_lines_linear st.arena 0
    have hcount : st.lines.count = st.lines.lines.length := by
      rw [hlines]
      exact hds.1
    obtain ⟨f, hf0, hflt⟩ := hds.2.1 st.focused hfoc
    have hf : lookupA st.lines.inds st.focused = some f := by
      rw [hlines]
      exact hf0
    have hfltL : f < st.lines.lines.length := by
      rw [hlines]
      have := hds.1
      omega
    obtain ⟨l, hfl⟩ : ∃ l, st.lines.lines.get? f = some l := by
      cases hgl : st.lines.lines.get? f with
      | none =>
          rw [List.get?_eq_none] at hgl
          omega
      | some l => exact ⟨l, rfl⟩
    have hfl2 : (draw st.arena 0).lines.get? f = some l := by
      rw [← hlines]
      exact hfl
    have hnext : l.next = f + 1 := (hlin.2 f l hfl2).1
    have hnotf : st.lines.folded.contains f = false := by
      rw [hlines, draw_folded]
      rfl
    obtain ⟨so, hsucc⟩ : ∃ so,
        subtreeSuccessor st.arena st.arena.length (some st.focused) = some so := by
      cases hs : subtreeSuccessor st.arena st.arena.length (some st.focused) with
      | none =>
          exact absurd hs (subtreeSuccessor_ne_none hwf.parentsLt st.arena.length
            st.focused hfoc)
      | some so => exact ⟨so, rfl⟩
    cases so with
    | none =>
        have hdldlt := deepestLastDesc_lt hwf st.arena.length st.focused hfoc
        obtain ⟨dv0, hdld0, _⟩ := hds.2.1
          (deepestLastDesc st.arena st.arena.length st.focused) hdldlt
        refine fold_unfold_cond st nd f l none st.lines.count dv0 hnd hdir hcount hf hfl
          hnext hnotf hsucc (fun nn h => Option.noConfusion h) (fun _ => rfl)
          (by rw [hlines]; exact hdld0) ?_
        intro lM hM
        rw [hcount, List.get?_eq_none.2 (Nat.le_refl _)] at hM
        exact Option.noConfusion hM
    | some nn =>
        obtain ⟨dv, h1, h2⟩ := draw_succ_contiguous st.arena hwf st.focused nn hfoc hsucc
        refine fold_unfold_cond st nd f l (some nn) (dv + 1) dv hnd hdir hcount hf hfl
          hnext hnotf hsucc ?_ (fun h => Option.noConfusion h)
          (by rw [hlines]; exact h1) ?_
        · intro nn2 h
          injection h with he
          rw [← he, hlines]
          exact h2
        · intro lM hM
          rw [hlines] at hM
          have hprev := (hlin.2 (dv + 1) lM hM).2
          rw [hprev, if_neg (by omega)]
          simp

/-- C1 witness: the fresh-draw round trip at the initial state of
`oneDirStream`, whose focus is the directory D. -/
theorem C1_witness :
    (fold_focus oneDirState).bind unfold_focus = some oneDirState :=
  fold_unfold_restores.2 oneDirState
    { parent := some 0, children := [2], entry := de_to_fsentry (mkDirDe ("D") 1) }
    (reachable_inv (Reachable.init ("root") oneDirStream false oneDirState
      (by decide) (by decide))).wf
    (by decide) (by decide) (by decide)
